import Mathlib

/-!
Verification of the argparse_issues parsing engine (src/argparse.py and
src/sample3.py) against its natural-language specification.

The Python source is shallowly embedded: pure helper functions become Lean
functions, the mutating parse loop becomes explicit state passing through a
small state monad, Python exceptions become `Except` errors, and the `re`
regular-expression calls are replaced by an executable backtracking matcher
restricted to the pattern language that `_get_nargs_pattern` actually
produces (greedy quantifiers over the three-symbol alphabet of A, O and
dash, matched with Python's leftmost, greedy-first backtracking strategy).
-/

namespace ArgparseSpec

/-! ## Constraint groups (`_NestingGroup`, src/argparse.py lines 2173-2316)

A `_NestingGroup` holds `_group_actions`, a list mixing plain `Action`
objects and nested `_NestingGroup`s.  An action child is embedded as
`Sum.inl (id, dest)`; a nested group as `Sum.inr`.  The `seen` argument is
the parser's `seen_non_default_actions`, embedded as the list of ids of the
actions seen with a non-default value. -/

/-- The `kind` tag of a `_NestingGroup` (src/argparse.py lines 2190-2201):
`mxg` (mutually exclusive), `inc` (inclusive), `anyK` (`'any'`), and
`otherK` for any other kind, which selects `test_this_group` (a test that
raises nothing and returns `None`). -/
inductive GKind where
  | mxg
  | inc
  | anyK
  | otherK
  deriving DecidableEq, Repr

/-- Errors raised through `parser.error` by the group tests; each carries
the group's `dest` and the `dest`s of the children listed in the message. -/
inductive GrpErr where
  | onlyOne (dest : String) (names : List String)
  | oneRequired (dest : String) (names : List String)
  | allRequired (dest : String) (names : List String)
  | someRequired (names : List String)
  deriving DecidableEq, Repr

/-- A `_NestingGroup`: kind tag, `dest`, `required` flag, and the
`_group_actions` list whose entries are either actions (id and dest) or
nested groups. -/
inductive NGroup where
  | mk (kind : GKind) (dest : String) (required : Bool)
      (children : List ((Nat × String) ⊕ NGroup))

/-- The `dest` of a child, as read by the error-message construction
(`action.dest` works for both actions and nested groups). -/
def childDest : (Nat × String) ⊕ NGroup → String
  | Sum.inl (_, d) => d
  | Sum.inr (NGroup.mk _ d _ _) => d

/-- `seen_actions.intersection(actions)` cardinality in `count_actions`
(src/argparse.py lines 2255-2262): the number of distinct direct action
children that are in the seen set. -/
def actSeenCount (children : List ((Nat × String) ⊕ NGroup)) (seen : List Nat) : Nat :=
  ((children.filterMap (fun c => match c with
      | Sum.inl (i, _) => some i
      | Sum.inr _ => none)).dedup.filter (fun i => i ∈ seen)).length

mutual

/-- The per-kind test function selected in `_NestingGroup.__init__`
(src/argparse.py lines 2190-2201) and run as `a.fn(...)`:
`test_mx_group` (lines 2267-2282), `test_inc_group` (lines 2284-2302),
`test_any_group` (lines 2304-2316), or `test_this_group` (lines 2241-2248,
which tests nothing and returns `None`, i.e. `false`).  Returns whether the
group counts as present (`cnt > 0`). -/
def evalGroup : NGroup → List Nat → Except GrpErr Bool
  | NGroup.mk kind dest req children, seen =>
    match kind with
    | GKind.mxg =>
      match countActions children seen with
      | Except.error e => Except.error e
      | Except.ok cnt =>
        if 1 < cnt then
          Except.error (GrpErr.onlyOne dest (children.map childDest))
        else if cnt = 0 ∧ req = true then
          Except.error (GrpErr.oneRequired dest (children.map childDest))
        else
          Except.ok (decide (0 < cnt))
    | GKind.inc =>
      match countActions children seen with
      | Except.error e => Except.error e
      | Except.ok cnt =>
        if 0 < cnt then
          if cnt < children.length then
            Except.error (GrpErr.allRequired dest (children.map childDest))
          else
            Except.ok (decide (0 < cnt))
        else if cnt = 0 ∧ req = true then
          Except.error (GrpErr.allRequired dest (children.map childDest))
        else
          Except.ok (decide (0 < cnt))
    | GKind.anyK =>
      match countActions children seen with
      | Except.error e => Except.error e
      | Except.ok cnt =>
        if cnt = 0 ∧ req = true then
          Except.error (GrpErr.someRequired (children.map childDest))
        else
          Except.ok (decide (0 < cnt))
    | GKind.otherK => Except.ok false
  termination_by g _ => (sizeOf g, 0)

/-- `count_actions` (src/argparse.py lines 2250-2265): the number of direct
action children seen plus the number of nested group children whose own
test function returns true.  An error raised by a nested test propagates.
Group children are counted positionally (in Python the `okgroups` set is a
set of distinct group objects; distinct tree nodes are distinct objects). -/
def countActions (children : List ((Nat × String) ⊕ NGroup)) (seen : List Nat) :
    Except GrpErr Nat :=
  match groupsOkCount children seen with
  | Except.error e => Except.error e
  | Except.ok n => Except.ok (actSeenCount children seen + n)
  termination_by (sizeOf children, 1)

/-- Count of nested-group children evaluating to true (the `okgroups` of
`count_actions`), propagating any error a nested test raises. -/
def groupsOkCount : List ((Nat × String) ⊕ NGroup) → List Nat → Except GrpErr Nat
  | [], _ => Except.ok 0
  | Sum.inl _ :: rest, seen => groupsOkCount rest seen
  | Sum.inr g :: rest, seen =>
    match evalGroup g seen with
    | Except.error e => Except.error e
    | Except.ok b =>
      match groupsOkCount rest seen with
      | Except.error e => Except.error e
      | Except.ok n => Except.ok (n + (if b then 1 else 0))
  termination_by cs _ => (sizeOf cs, 0)

end

/-- Satisfaction of a single child node: an action child is satisfied when
it is in the seen set (as in `count_actions`); a group child is satisfied
when its own test function returns true (errors propagate). -/
def evalChild : (Nat × String) ⊕ NGroup → List Nat → Except GrpErr Bool
  | Sum.inl (i, _), seen => Except.ok (decide (i ∈ seen))
  | Sum.inr g, seen => evalGroup g seen

/-- Modelled from the spec: the negated constraint node (`kind='not'` of the
usage-group tree).  The implementation of this kind is not among the source
files (only callers such as src/issue25626109.py and src/try_usage1.py,
which build groups with `kind='not'`, are); the spec states that the node
"returns the logical negation of its single child's satisfaction" and
raises no error of its own. -/
def evalNegated (child : (Nat × String) ⊕ NGroup) (seen : List Nat) :
    Except GrpErr Bool :=
  match evalChild child seen with
  | Except.error e => Except.error e
  | Except.ok s => Except.ok (!s)

/-! ## Python values, errors, arity tags -/

/-- Embedded Python values as they occur in the parsing core: `None`,
strings, ints, lists, the `SUPPRESS` sentinel, and the `_DelayedValue`
wrapper (src/argparse.py lines 141-144) which closes over `_get_value`, the
owning action and the raw default string. -/
inductive PyVal where
  | pynone
  | str (s : String)
  | pyint (n : Int)
  | plist (xs : List PyVal)
  | suppressV
  | delayed (aid : Nat) (s : String)
  deriving Repr

mutual

/-- Boolean equality on embedded Python values. -/
def pyvalBeq : PyVal → PyVal → Bool
  | PyVal.pynone, PyVal.pynone => true
  | PyVal.str a, PyVal.str b => a == b
  | PyVal.pyint a, PyVal.pyint b => a == b
  | PyVal.plist xs, PyVal.plist ys => pyvalListBeq xs ys
  | PyVal.suppressV, PyVal.suppressV => true
  | PyVal.delayed i s, PyVal.delayed j t => i == j && s == t
  | _, _ => false

/-- Boolean equality on lists of embedded Python values. -/
def pyvalListBeq : List PyVal → List PyVal → Bool
  | [], [] => true
  | x :: xs, y :: ys => pyvalBeq x y && pyvalListBeq xs ys
  | _, _ => false

end

mutual

def pyvalBeq_iff : ∀ (a b : PyVal), pyvalBeq a b = true ↔ a = b
  | PyVal.pynone, b => by cases b <;> simp [pyvalBeq]
  | PyVal.str a, b => by cases b <;> simp [pyvalBeq]
  | PyVal.pyint a, b => by cases b <;> simp [pyvalBeq]
  | PyVal.suppressV, b => by cases b <;> simp [pyvalBeq]
  | PyVal.delayed i s, b => by cases b <;> simp [pyvalBeq]
  | PyVal.plist xs, b => by
      cases b <;> simp [pyvalBeq]
      exact pyvalListBeq_iff xs _

def pyvalListBeq_iff : ∀ (xs ys : List PyVal), pyvalListBeq xs ys = true ↔ xs = ys
  | [], ys => by cases ys <;> simp [pyvalListBeq]
  | x :: xs, ys => by
      cases ys with
      | nil => simp [pyvalListBeq]
      | cons y ys =>
        simp only [pyvalListBeq, Bool.and_eq_true, List.cons.injEq]
        rw [pyvalBeq_iff x y, pyvalListBeq_iff xs ys]

end

instance : DecidableEq PyVal := fun a b => decidable_of_iff _ (pyvalBeq_iff a b)

/-- Errors raised during a parse call: `ArgumentError` (with the offending
action's id when one is attached), the invalid-choice `ArgumentError`
carrying the full list of violating values, `parser.error` messages, the
ambiguous-option `parser.error` carrying every candidate match, and fuel
exhaustion of the embedded loops (unreachable with adequate fuel). -/
inductive PErr where
  | argErr (aid : Option Nat) (msg : String)
  | choiceErr (aid : Nat) (problems : List PyVal)
  | usageErr (msg : String)
  | ambigErr (tok : String) (cands : List String)
  | fuelErr
  deriving DecidableEq, Repr

/-- Decidable equality of `Except` results, for evaluating the embedding at
concrete inputs. -/
instance {e a : Type} [DecidableEq e] [DecidableEq a] : DecidableEq (Except e a) := fun x y =>
  match x, y with
  | Except.ok v, Except.ok w =>
    if h : v = w then isTrue (by rw [h]) else isFalse (by intro hc; cases hc; exact h rfl)
  | Except.error v, Except.error w =>
    if h : v = w then isTrue (by rw [h]) else isFalse (by intro hc; cases hc; exact h rfl)
  | Except.ok _, Except.error _ => isFalse (by intro hc; cases hc)
  | Except.error _, Except.ok _ => isFalse (by intro hc; cases hc)

/-- The arity (nargs) vocabulary (src/argparse.py lines 100-104, 146-170):
`one` is Python's `None` (exactly one value), `opt` is `'?'`, `star` is
`'*'`, `plus` is `'+'`, `remainder` is `'...'`, `parserA` is `'A...'`,
`rep m n` is the bounded range `'{m,n}'` with an optional upper bound, and
`fixed n` an exact integer count; `suppressA` is the SUPPRESS nargs. -/
inductive Nargs where
  | one
  | opt
  | star
  | plus
  | remainder
  | parserA
  | rep (m : Nat) (n : Option Nat)
  | fixed (n : Nat)
  | suppressA
  deriving DecidableEq, Repr

/-! ## `Action._check_values` (src/argparse.py lines 1249-1276)

`choices` is embedded as an optional list of values (a Python string
choices container is normalised to the list of its one-character strings by
the `isinstance(choices, str)` branch before membership testing; the
embedding receives the already-normalised list). -/

/-- `_check_values`: with no choice set, do nothing; otherwise wrap a
non-list value into a singleton, collect every value failing the membership
test, and raise a single `ArgumentError` carrying the action and all
violating values when there are any. -/
def checkValues (aid : Nat) (choices : Option (List PyVal)) (v : PyVal) :
    Except PErr Unit :=
  match choices with
  | none => Except.ok ()
  | some cs =>
    let values := match v with
      | PyVal.plist xs => xs
      | w => [w]
    let problems := values.filter (fun x => decide (x ∉ cs))
    if problems.isEmpty then Except.ok ()
    else Except.error (PErr.choiceErr aid problems)

/-! ## `_get_positional_kwargs` (src/argparse.py lines 1929-1948) -/

/-- The keyword-argument record produced for a positional action. -/
structure PosKw where
  dest : String
  optionStrings : List String
  required : Bool
  nargs : Nargs
  deriving DecidableEq, Repr

/-- `_get_positional_kwargs`: rejects an explicit `required` keyword with a
`TypeError`; otherwise marks the positional required unless its nargs is
`'?'` or `'*'`, normalises dashes in the dest, and attaches an empty
option-string list.  `Nargs.one` plays the role of an absent/None nargs
value (`kwargs.get('nargs')` yields `None` in both cases). -/
def getPositionalKwargs (dest : String) (nargs : Nargs) (requiredGiven : Bool) :
    Except String PosKw :=
  if requiredGiven then
    Except.error "required is an invalid argument for positionals"
  else
    Except.ok
      { dest := dest.replace "-" "_"
        optionStrings := []
        required := if nargs ≠ Nargs.opt ∧ nargs ≠ Nargs.star then true else false
        nargs := nargs }

/-! ## Token classification: `_parse_optional` (src/argparse.py lines
2944-3015) and `_get_option_tuples` (lines 3017-3059) -/

/-- The per-parser data `_parse_optional` consults: the prefix characters,
the `_option_string_actions` index (in insertion order, each option string
mapped to its action's id), the `scan` switch and subparser lookup
(`_get_nested_action`, lines 2930-2942, abstracted to whether the token is
found), `bool(_has_negative_number_optionals)`,
`args_default_to_positional`, and the `complex(arg_string)` parse of the
standard library (abstracted as a predicate). -/
structure OptCfg where
  prefixChars : List Char
  index : List (String × Nat)
  scan : Bool
  nestedHit : String → Bool
  hasNegNum : Bool
  argsDefaultToPositional : Bool
  looksLikeNumber : String → Bool

/-- `startswith` on embedded strings, computed over the character lists so
that concrete instances evaluate by kernel reduction. -/
def strStartsWith (s pre : String) : Bool :=
  pre.data.isPrefixOf s.data

/-- Dictionary lookup in an insertion-ordered association list. -/
def assocLookup (l : List (String × Nat)) (k : String) : Option Nat :=
  (l.find? (fun p => p.1 = k)).map (fun p => p.2)

/-- `arg_string.split('=', 1)` when `'=' in arg_string`: the part before the
first `=` and the part after it. -/
def splitFirstEq (s : String) : Option (String × String) :=
  match s.data.findIdx? (fun c => c = '=') with
  | none => none
  | some i => some (String.mk (s.data.take i), String.mk (s.data.drop (i + 1)))

/-- `arg_string[0]`, when the string is non-empty. -/
def strHead (s : String) : Option Char :=
  s.data.head?

/-- The classification result of `_parse_optional`: a plain positional
value (`None`), an accepted option tuple `(action, option_string,
explicit_arg)` whose action part is `None` for an unknown option-like
token, or the ambiguous-option error naming every candidate match. -/
inductive OptResult where
  | positional
  | accept (aid : Option Nat) (optStr : String) (explicitArg : Option String)
  | ambiguous (tok : String) (cands : List String)
  deriving DecidableEq, Repr

/-- `_get_option_tuples`: for a token starting with two prefix characters,
split at `=` if present and collect every registered option string having
the part before `=` as a prefix; for a token starting with exactly one
prefix character, collect the exact two-character short option (with the
rest of the token attached as its explicit argument) and every registered
option string having the whole token as a prefix.  (The source calls
`self.error` on a token without a leading prefix character, a case
`_parse_optional` never passes in; it is embedded as no candidates.) -/
def getOptionTuples (cfg : OptCfg) (s : String) : List (Nat × String × Option String) :=
  match s.data with
  | c0 :: c1 :: _ =>
    if c0 ∈ cfg.prefixChars ∧ c1 ∈ cfg.prefixChars then
      let pe : String × Option String :=
        match splitFirstEq s with
        | some (p, e) => (p, some e)
        | none => (s, none)
      cfg.index.filterMap (fun os =>
        if strStartsWith os.1 pe.1 then some (os.2, os.1, pe.2) else none)
    else if c0 ∈ cfg.prefixChars ∧ c1 ∉ cfg.prefixChars then
      let shortPre : String := String.mk [c0, c1]
      let shortExpl : String := String.mk (s.data.drop 2)
      cfg.index.filterMap (fun os =>
        if os.1 = shortPre then some (os.2, os.1, some shortExpl)
        else if strStartsWith os.1 s then some (os.2, os.1, none) else none)
    else []
  | _ => []

/-- `_parse_optional`, following the source's branch order: empty string →
positional; first character not a prefix character → positional; exact
match in the index → that action; token found in a subparser (when
scanning) → unknown-option tuple; single character → positional; exact
match of the part before `=` → that action with the explicit argument;
otherwise collect prefix candidates — more than one is the ambiguity
error, exactly one is accepted; with no candidate the token falls back to a
positional when `args_default_to_positional` is set, when it parses as a
number (and no option string looks like a negative number), or when it
contains a space; else it is an unknown option. -/
def parseOptional (cfg : OptCfg) (arg : String) : OptResult :=
  match strHead arg with
  | none => OptResult.positional
  | some c0 =>
    if c0 ∈ cfg.prefixChars then
      match assocLookup cfg.index arg with
      | some aid => OptResult.accept (some aid) arg none
      | none =>
        if cfg.scan && cfg.nestedHit arg then OptResult.accept none arg none
        else if arg.length = 1 then OptResult.positional
        else
          match (match splitFirstEq arg with
                 | some (p, e) =>
                   match assocLookup cfg.index p with
                   | some aid => some (aid, p, e)
                   | none => none
                 | none => none : Option (Nat × String × String)) with
          | some (aid, p, e) => OptResult.accept (some aid) p (some e)
          | none =>
            let tups := getOptionTuples cfg arg
            if 1 < tups.length then
              OptResult.ambiguous arg (tups.map (fun t => t.2.1))
            else
              match tups with
              | [t] => OptResult.accept (some t.1) t.2.1 t.2.2
              | _ =>
                if cfg.argsDefaultToPositional then OptResult.positional
                else if !cfg.hasNegNum && cfg.looksLikeNumber arg then
                  OptResult.positional
                else if ' ' ∈ arg.data then OptResult.positional
                else OptResult.accept none arg none
    else OptResult.positional

/-- A parser configuration registering the long options `--foo` and
`--foobar` (the spec's ambiguity scenario). -/
def fooCfg : OptCfg :=
  { prefixChars := ['-'], index := [("--foo", 1), ("--foobar", 2)], scan := true,
    nestedHit := fun _ => false, hasNegNum := false,
    argsDefaultToPositional := false, looksLikeNumber := fun _ => false }

/-- A parser configuration where the one-character string consisting of the
prefix character alone is itself a registered option string, as
`_get_optional_kwargs` (src/argparse.py lines 1950-1984) permits when an
explicit `dest` keyword is supplied. -/
def dashCfg : OptCfg :=
  { prefixChars := ['-'], index := [("-", 0)], scan := true,
    nestedHit := fun _ => false, hasNegNum := false,
    argsDefaultToPositional := false, looksLikeNumber := fun _ => false }

/-! ## The regular-expression matcher

`_match_argument` and `_match_arguments_partial` match `re` patterns built
by `_get_nargs_pattern` (src/argparse.py lines 1099-1149) against the
parse-time symbol string over the alphabet A (plain value), O (option-like
token) and dash (the bare `--` separator).  Every such pattern is a
concatenation of one capture group per action, each group a sequence of
atoms drawn from character classes under the quantifiers nothing, `?`, `*`
and `{m,n}`.  The embedded matcher reproduces Python's leftmost greedy
backtracking: each quantifier proposes its candidate widths longest first,
and the first assignment letting the whole remaining pattern match wins
(`re.match` anchors only at the start and allows leftover input). -/

/-- A symbol of the argument pattern string: `A`, `O`, or `-`. -/
inductive RAtom where
  | chA
  | chO
  | chD
  deriving DecidableEq, Repr

/-- One quantified character-class element of a nargs pattern. -/
inductive RItem where
  | exactly (cs : List RAtom)
  | optOne (cs : List RAtom)
  | starCl (cs : List RAtom)
  | repCl (cs : List RAtom) (m : Nat) (n : Option Nat)
  deriving DecidableEq, Repr

/-- Length of the longest prefix drawn from the class. -/
def longestRun (cs : List RAtom) : List RAtom → Nat
  | [] => 0
  | x :: rest => if x ∈ cs then longestRun cs rest + 1 else 0

/-- `hi, hi-1, ..., lo` (empty when `hi < lo`): greedy preference order. -/
def descRange (lo hi : Nat) : List Nat :=
  (List.range (hi + 1 - lo)).map (fun i => hi - i)

/-- The candidate widths of one quantified element against a suffix, in the
order Python's greedy quantifiers try them. -/
def itemCands (it : RItem) (s : List RAtom) : List Nat :=
  match it with
  | RItem.exactly cs =>
    match s with
    | x :: _ => if x ∈ cs then [1] else []
    | [] => []
  | RItem.optOne cs =>
    match s with
    | x :: _ => if x ∈ cs then [1, 0] else [0]
    | [] => [0]
  | RItem.starCl cs => descRange 0 (longestRun cs s)
  | RItem.repCl cs m n =>
    let run := longestRun cs s
    let hi := match n with
      | some nn => min nn run
      | none => run
    descRange m hi

mutual

/-- Backtracking match of a sequence of quantified elements against a
suffix, returning the per-element consumed widths of the first (most
greedy) global match and the leftover suffix.  The fuel argument only
bounds the backtracking depth so the recursion is structural (and hence
kernel-computable); `matchGroups` supplies a fuel that cannot run out. -/
def matchItems : Nat → List RItem → List RAtom → Option (List Nat × List RAtom)
  | 0, _, _ => none
  | _ + 1, [], s => some ([], s)
  | fuel + 1, it :: rest, s => matchItemsAux fuel rest s (itemCands it s)

/-- Try each candidate width of the current element in preference order,
keeping the first for which the rest of the pattern matches. -/
def matchItemsAux : Nat → List RItem → List RAtom → List Nat →
    Option (List Nat × List RAtom)
  | 0, _, _, _ => none
  | _ + 1, _, _, [] => none
  | fuel + 1, rest, s, k :: ks =>
    match matchItems fuel rest (s.drop k) with
    | some (r, rem) => some (k :: r, rem)
    | none => matchItemsAux fuel rest s ks

end

/-- Sum the per-element widths of a flat match back into per-group widths
(`len(match.group(i))` of the concatenated pattern). -/
def groupSums : List (List RItem) → List Nat → List Nat
  | [], _ => []
  | g :: rest, ks => (ks.take g.length).sum :: groupSums rest (ks.drop g.length)

/-- Anchored match of a concatenation of capture groups; `some` gives each
group's consumed width.  The fuel bounds the total backtracking chain: one
step per element plus one per attempted candidate width, at most
`(elements + 1) * (input + 3)`. -/
def matchGroups (gs : List (List RItem)) (s : List RAtom) : Option (List Nat) :=
  let items := gs.flatten
  match matchItems ((items.length + 1) * (s.length + 3)) items s with
  | none => none
  | some (ks, _) => some (groupSums gs ks)

/-- `_get_nargs_pattern` (src/argparse.py lines 1099-1149), after the
dash-stripping replacement applied when the action has option strings.  The
source strings are, per arity: `(-*A-*)`, `(-*A?-*)`, `(-*[A-]*)`,
`(-*A[A-]*)`, `([-AO]*)`, `(-*A[-AO]*)`, `([-A]{m,n})`, `(-*-*)`, and for a
fixed count the `-*`-interleaved `A` sequence; with option strings the
`-*` and `-` parts are removed. -/
def nargsPattern (hasOpts : Bool) : Nargs → List RItem
  | Nargs.one =>
    if hasOpts then [RItem.exactly [RAtom.chA]]
    else [RItem.starCl [RAtom.chD], RItem.exactly [RAtom.chA], RItem.starCl [RAtom.chD]]
  | Nargs.opt =>
    if hasOpts then [RItem.optOne [RAtom.chA]]
    else [RItem.starCl [RAtom.chD], RItem.optOne [RAtom.chA], RItem.starCl [RAtom.chD]]
  | Nargs.star =>
    if hasOpts then [RItem.starCl [RAtom.chA]]
    else [RItem.starCl [RAtom.chD], RItem.starCl [RAtom.chA, RAtom.chD]]
  | Nargs.plus =>
    if hasOpts then [RItem.exactly [RAtom.chA], RItem.starCl [RAtom.chA]]
    else [RItem.starCl [RAtom.chD], RItem.exactly [RAtom.chA],
      RItem.starCl [RAtom.chA, RAtom.chD]]
  | Nargs.remainder =>
    if hasOpts then [RItem.starCl [RAtom.chA, RAtom.chO]]
    else [RItem.starCl [RAtom.chD, RAtom.chA, RAtom.chO]]
  | Nargs.parserA =>
    if hasOpts then [RItem.exactly [RAtom.chA], RItem.starCl [RAtom.chA, RAtom.chO]]
    else [RItem.starCl [RAtom.chD], RItem.exactly [RAtom.chA],
      RItem.starCl [RAtom.chD, RAtom.chA, RAtom.chO]]
  | Nargs.rep m n =>
    if hasOpts then [RItem.repCl [RAtom.chA] m n]
    else [RItem.repCl [RAtom.chD, RAtom.chA] m n]
  | Nargs.suppressA =>
    if hasOpts then []
    else [RItem.starCl [RAtom.chD], RItem.starCl [RAtom.chD]]
  | Nargs.fixed n =>
    if hasOpts then List.replicate n (RItem.exactly [RAtom.chA])
    else if n = 0 then [RItem.starCl [RAtom.chD], RItem.starCl [RAtom.chD]]
    else [RItem.starCl [RAtom.chD]] ++
      (List.replicate n [RItem.exactly [RAtom.chA], RItem.starCl [RAtom.chD]]).flatten

/-- `Action._is_nargs_variable` (src/argparse.py lines 1218-1224). -/
def isNargsVariable : Nargs → Bool
  | Nargs.opt => true
  | Nargs.star => true
  | Nargs.plus => true
  | Nargs.remainder => true
  | Nargs.parserA => true
  | Nargs.rep _ _ => true
  | _ => false

/-! ## The parsing pipeline (`_parse_known_args` and `parse_known_args`,
src/argparse.py lines 2490-2862)

The mutable per-parse state of `_parse_known_args` (the namespace under
construction, the seen-action records, the leftover tokens, the remaining
positional queue) is threaded through a state monad whose errors model the
`ArgumentError` and `parser.error` exits.  The embedded actions use the
store behaviour (`_StoreAction.__call__` sets the dest attribute), which is
the action kind the settled claims exercise.  Conversions performed by
`_get_value` are additionally recorded as events `(action id, raw string,
using-default flag)`; the flag is pure instrumentation marking the
conversions of default values (the `using_default` paths of `_get_values`
and the `_DelayedValue` evaluations). -/

/-- One declared argument: the action's id, `option_strings`, `dest`,
arity, `default`, `const`, type converter (absent means the registered
identity converter for `type=None`), `choices`, and `required` flag. -/
structure ActionCfg where
  id : Nat
  optionStrings : List String
  dest : String
  nargs : Nargs
  defaultV : PyVal
  constV : PyVal
  conv : Option (String → Except String PyVal)
  choices : Option (List PyVal)
  required : Bool

/-- A configured parser: its actions in registration order plus the
classification inputs of `_parse_optional` and the registered cross tests
(the constraint-group test functions) and parser-level `_defaults`. -/
structure ParserCfg where
  actions : List ActionCfg
  prefixChars : List Char
  scan : Bool
  nestedHit : String → Bool
  hasNegNum : Bool
  argsDefaultToPositional : Bool
  looksLikeNumber : String → Bool
  crossTests : List NGroup
  parserDefaults : List (String × PyVal)

/-- `_option_string_actions` in registration order (conflict resolution
keeps option strings unique across a parser's actions). -/
def optIndexOf (cfg : ParserCfg) : List (String × Nat) :=
  (cfg.actions.map (fun a => a.optionStrings.map (fun s => (s, a.id)))).flatten

/-- The classification inputs of `_parse_optional` for this parser. -/
def toOptCfg (cfg : ParserCfg) : OptCfg :=
  { prefixChars := cfg.prefixChars
    index := optIndexOf cfg
    scan := cfg.scan
    nestedHit := cfg.nestedHit
    hasNegNum := cfg.hasNegNum
    argsDefaultToPositional := cfg.argsDefaultToPositional
    looksLikeNumber := cfg.looksLikeNumber }

/-- `_get_positional_actions` (src/argparse.py lines 2475-2478). -/
def positionalIds (cfg : ParserCfg) : List Nat :=
  (cfg.actions.filter (fun a => a.optionStrings.isEmpty)).map (fun a => a.id)

/-- Action lookup by id. -/
def findAction (cfg : ParserCfg) (aid : Nat) : Option ActionCfg :=
  cfg.actions.find? (fun a => a.id = aid)

/-- A recorded conversion: converting action, raw string, and whether the
converted string was a default value. -/
structure Ev where
  aid : Nat
  raw : String
  isDefault : Bool
  deriving DecidableEq, Repr

/-- The ephemeral state of one parse call. -/
structure PState where
  ns : List (String × PyVal)
  seenActions : List Nat
  seenNonDefault : List Nat
  extras : List String
  positionals : List Nat
  events : List Ev
  deriving Repr

/-- The parse-call monad: state threading with `ArgumentError` and
`parser.error` aborts (Python exceptions do not roll back prior
mutations, so the state survives an error). -/
def M (α : Type) : Type := PState → Except PErr α × PState

instance : Monad M where
  pure a := fun st => (Except.ok a, st)
  bind m f := fun st =>
    match m st with
    | (Except.ok a, st2) => f a st2
    | (Except.error e, st2) => (Except.error e, st2)

/-- Abort the parse with an error. -/
def mthrow {α : Type} (e : PErr) : M α := fun st => (Except.error e, st)

/-- Read the parse state. -/
def getS : M PState := fun st => (Except.ok st, st)

/-- Transform the parse state. -/
def modifyS (f : PState → PState) : M Unit := fun st => (Except.ok (), f st)

/-- `setattr(namespace, k, v)`: replace the binding or append it. -/
def nsSet (ns : List (String × PyVal)) (k : String) (v : PyVal) :
    List (String × PyVal) :=
  match ns with
  | [] => [(k, v)]
  | (k2, v2) :: rest =>
    if k2 = k then (k, v) :: rest else (k2, v2) :: nsSet rest k v

/-- `getattr(namespace, k, None)` as an optional lookup. -/
def nsGet (ns : List (String × PyVal)) (k : String) : Option PyVal :=
  (ns.find? (fun p => p.1 = k)).map (fun p => p.2)

/-- `_get_value` (src/argparse.py lines 3153-3177): apply the action's type
converter (the identity for `type=None`) to one raw string, wrapping
converter failures into an `ArgumentError` carrying the action.  The
conversion is recorded as an event with the caller's using-default flag. -/
def getValue (a : ActionCfg) (isDef : Bool) (s : String) : M PyVal := fun st =>
  let st2 := { st with events := st.events ++ [Ev.mk a.id s isDef] }
  let r : Except PErr PyVal :=
    match a.conv with
    | none => Except.ok (PyVal.str s)
    | some f =>
      match f s with
      | Except.ok v => Except.ok v
      | Except.error m => Except.error (PErr.argErr (some a.id) m)
  (r, st2)

/-- `_check_values` lifted into the parse monad. -/
def checkValuesM (a : ActionCfg) (v : PyVal) : M Unit := fun st =>
  match checkValues a.id a.choices v with
  | Except.ok u => (Except.ok u, st)
  | Except.error e => (Except.error e, st)

/-- The list comprehension `[self._get_value(action, v) for v in
arg_strings]`, converting left to right. -/
def mapConvert (a : ActionCfg) (flag : Bool) : List String → M (List PyVal)
  | [] => pure []
  | s :: rest => do
    let v ← getValue a flag s
    let vs ← mapConvert a flag rest
    pure (v :: vs)

/-- `_get_values` (src/argparse.py lines 3093-3150): the if/elif chain over
arity and argument count, returning the converted value and the
`using_default` flag. -/
def getValuesM (a : ActionCfg) (args : List String) : M (PyVal × Bool) :=
  if args.isEmpty ∧ a.nargs = Nargs.opt then
    match (if a.optionStrings.isEmpty then (a.defaultV, true)
        else (a.constV, false) : PyVal × Bool) with
    | (PyVal.str s, ud) => do
      let v1 ← getValue a ud s
      checkValuesM a v1
      pure (v1, ud)
    | (v0, ud) => pure (v0, ud)
  else if args.isEmpty ∧ a.nargs = Nargs.star ∧ a.optionStrings.isEmpty then
    match (if a.defaultV ≠ PyVal.pynone then a.defaultV else PyVal.plist [] : PyVal) with
    | PyVal.str s => do
      checkValuesM a (PyVal.str s)
      pure (PyVal.str s, true)
    | v1 => pure (v1, true)
  else if args.length = 1 ∧ (a.nargs = Nargs.one ∨ a.nargs = Nargs.opt) then do
    let v1 ← getValue a false (args.headD "")
    checkValuesM a v1
    pure (v1, false)
  else if a.nargs = Nargs.remainder then do
    let vs ← mapConvert a false args
    pure (PyVal.plist vs, false)
  else if a.nargs = Nargs.parserA then do
    let vs ← mapConvert a false args
    match vs with
    | [] => mthrow (PErr.argErr (some a.id) "index error")
    | v0 :: _ => do
      checkValuesM a v0
      pure (PyVal.plist vs, false)
  else do
    let vs ← mapConvert a false args
    checkValuesM a (PyVal.plist vs)
    pure (PyVal.plist vs, false)

/-- `take_action` (src/argparse.py lines 2588-2611) for store-kind actions:
record the action as seen, convert its argument strings, record it as seen
with a non-default value when `_get_values` did not fall back to the
default, and store the value unless it is `SUPPRESS`. -/
def takeAction (a : ActionCfg) (args : List String) : M Unit := do
  modifyS (fun st =>
    { st with seenActions :=
        if a.id ∈ st.seenActions then st.seenActions else st.seenActions ++ [a.id] })
  let vud ← getValuesM a args
  let _ ← (if vud.2 = false then
      modifyS (fun st => { st with seenNonDefault := st.seenNonDefault ++ [a.id] })
    else
      pure () : M Unit)
  if vud.1 = PyVal.suppressV then
    pure ()
  else
    modifyS (fun st => { st with ns := nsSet st.ns a.dest vud.1 })

/-- `_match_argument` (src/argparse.py lines 2893-2912): length of the
match of the action's own pattern, or an `ArgumentError` on no match. -/
def matchArgument (a : ActionCfg) (patt : List RAtom) : M Nat :=
  match matchGroups [nargsPattern (!a.optionStrings.isEmpty) a.nargs] patt with
  | some ks => pure (ks.headD 0)
  | none => mthrow (PErr.argErr (some a.id) "expected arguments")

/-- `_match_arguments_partial` (src/argparse.py lines 2914-2928): try the
full action list first, then progressively drop actions from the tail until
the concatenated pattern matches, returning the per-action widths (empty
when nothing matches). -/
def matchPartialAux (acts : List ActionCfg) (patt : List RAtom) : Nat → List Nat
  | 0 => []
  | i + 1 =>
    let gs := (acts.take (i + 1)).map
      (fun a => nargsPattern (!a.optionStrings.isEmpty) a.nargs)
    match matchGroups gs patt with
    | some ks => ks
    | none => matchPartialAux acts patt i

/-- `_match_arguments_partial` entry point. -/
def matchArgumentsPartial (acts : List ActionCfg) (patt : List RAtom) : List Nat :=
  matchPartialAux acts patt acts.length

/-- An option tuple `(action, option_string, explicit_arg)` as stored in
`option_string_indices`. -/
def OptTuple : Type := Option Nat × String × Option String

/-- Lookup in a `Nat`-keyed association list. -/
def assocNat {β : Type} (l : List (Nat × β)) (k : Nat) : Option β :=
  (l.find? (fun p => p.1 = k)).map (fun p => p.2)

/-- Count of option symbols in a pattern suffix (`.count('O')`). -/
def countO (patt : List RAtom) : Nat :=
  (patt.filter (fun c => c = RAtom.chO)).length

/-- The smallest option index at or after a position (`min` of the filtered
`option_string_indices` keys). -/
def minKeyGE {β : Type} (l : List (Nat × β)) (k : Nat) : Option Nat :=
  (l.filterMap (fun p => if k ≤ p.1 then some p.1 else none)).foldr
    (fun a acc =>
      match acc with
      | none => some a
      | some b => some (min a b)) none

/-- The largest option index (`max(option_string_indices)`). -/
def maxKey {β : Type} (l : List (Nat × β)) : Option Nat :=
  (l.map (fun p => p.1)).foldr
    (fun a acc =>
      match acc with
      | none => some a
      | some b => some (max a b)) none

/-- Strip trailing zero-width matches (the deferred zero-width positionals
of `consume_positionals`, src/argparse.py lines 2721-2723). -/
def dropTrailingZeros (l : List Nat) : List Nat :=
  (l.reverse.dropWhile (fun n => n = 0)).reverse

/-- `args[start:stop]`. -/
def sliceList {α : Type} (l : List α) (start stop : Nat) : List α :=
  (l.drop start).take (stop - start)

/-- The inner `while True` loop of `consume_optional` (src/argparse.py
lines 2624-2695), which may iterate only by splitting short-option
clusters, each split consuming one character of the explicit argument (the
fuel bounds that length).  Returns the accumulated action tuples (or `none`
for a skipped unknown option, already added to the extras) and the stop
index. -/
def optLoop (cfg : ParserCfg) (args : List String) (patt : List RAtom)
    (startIndex : Nat) (penult : Nat) :
    Nat → Option Nat → String → Option String →
    List (ActionCfg × List String × String) →
    M (Option (List (ActionCfg × List String × String)) × Nat)
  | 0, _, _, _, _ => mthrow PErr.fuelErr
  | _ + 1, none, _, _, _ => do
    modifyS (fun st => { st with extras := st.extras ++ [args.getD startIndex ""] })
    pure (none, startIndex + 1)
  | fuel + 1, some aid, optionString, explicitArg, acc =>
    match findAction cfg aid with
    | none => mthrow (PErr.usageErr "unknown action id")
    | some a =>
      match explicitArg with
      | some ea => do
        let argCount ← matchArgument a [RAtom.chA]
        if argCount = 0 ∧ (optionString.data.getD 1 ' ') ∉ cfg.prefixChars then
          match ea.data with
          | [] => mthrow (PErr.argErr (some a.id) "ignored explicit argument")
          | c :: rest2 =>
            match assocLookup (optIndexOf cfg)
                (String.mk [optionString.data.headD '-', c]) with
            | some aid2 =>
              optLoop cfg args patt startIndex penult fuel (some aid2)
                (String.mk [optionString.data.headD '-', c])
                (if rest2.isEmpty then none else some (String.mk rest2))
                (acc ++ [(a, ([] : List String), optionString)])
            | none => mthrow (PErr.argErr (some a.id) "ignored explicit argument")
        else if argCount = 1 then
          pure (some (acc ++ [(a, [ea], optionString)]), startIndex + 1)
        else
          mthrow (PErr.argErr (some a.id) "ignored explicit argument")
      | none => do
        let start := startIndex + 1
        let selected := patt.drop start
        let argCount ← matchArgument a selected
        let st ← getS
        let posActs := st.positionals.filterMap (findAction cfg)
        let argCount2 :=
          if isNargsVariable a.nargs then
            let slots := matchArgumentsPartial (a :: posActs) selected
            let shared := slots.headD 0
            if countO selected ≤ penult then
              if shared < argCount then shared else argCount
            else argCount
          else argCount
        pure (some (acc ++ [(a, sliceList args start (start + argCount2), optionString)]),
          start + argCount2)

/-- Run `take_action` over the accumulated option tuples. -/
def takeAll : List (ActionCfg × List String × String) → M Unit
  | [] => pure ()
  | (a, as2, _) :: rest => do
    takeAction a as2
    takeAll rest

/-- `consume_optional` (src/argparse.py lines 2614-2704): resolve the tuple
stored for this index, run the explicit-argument and cluster-splitting
loop, then (unless dry running) take every accumulated action. -/
def consumeOptional (cfg : ParserCfg) (args : List String) (patt : List RAtom)
    (optIdx : List (Nat × OptTuple)) (startIndex : Nat) (noAction : Bool)
    (penult : Nat) : M Nat := do
  match assocNat optIdx startIndex with
  | none => mthrow (PErr.usageErr "no option at this index")
  | some tup => do
    let fuel := (match tup.2.2 with
      | some e => e.length
      | none => 0) + 2
    let r ← optLoop cfg args patt startIndex penult fuel tup.1 tup.2.1 tup.2.2 []
    match r with
    | (none, stop) => pure stop
    | (some ts, stop) =>
      if noAction then pure stop
      else do
        takeAll ts
        pure stop

/-- The per-positional slice-and-take loop of `consume_positionals`
(src/argparse.py lines 2727-2742), including the removal of the token at
the first dash symbol of the slice (the `--` handling of issue 13922). -/
def posLoop (cfg : ParserCfg) (args : List String) (patt : List RAtom)
    (noAction : Bool) : List (ActionCfg × Nat) → Nat → M Nat
  | [], idx => pure idx
  | (a, cnt) :: rest, idx =>
    if noAction then
      posLoop cfg args patt noAction rest (idx + cnt)
    else do
      takeAction a
        (if a.nargs ≠ Nargs.parserA ∧ a.nargs ≠ Nargs.remainder then
          match (sliceList patt idx (idx + cnt)).findIdx? (fun c => c = RAtom.chD) with
          | some ii => (sliceList args idx (idx + cnt)).eraseIdx ii
          | none => sliceList args idx (idx + cnt)
        else sliceList args idx (idx + cnt))
      posLoop cfg args patt noAction rest (idx + cnt)

/-- `consume_positionals` (src/argparse.py lines 2711-2747): match as many
pending positionals as possible against the remaining pattern, defer
trailing zero-width matches while option symbols remain, take the matched
actions, and drop the matched prefix of the positional queue. -/
def consumePositionals (cfg : ParserCfg) (args : List String) (patt : List RAtom)
    (startIndex : Nat) (noAction : Bool) : M Nat := do
  let st ← getS
  let posActs := st.positionals.filterMap (findAction cfg)
  let selected := patt.drop startIndex
  let counts0 := matchArgumentsPartial posActs selected
  let counts := if RAtom.chO ∈ selected then dropTrailingZeros counts0 else counts0
  let r ← posLoop cfg args patt noAction (posActs.zip counts) startIndex
  modifyS (fun st2 => { st2 with positionals := st2.positionals.drop counts.length })
  pure r

/-- The alternating while loop of `consume_loop` (src/argparse.py lines
2749-2785): before each option index consume a positional span; a stalled
span turns the gap into extras; then consume the option.  Each iteration
strictly advances the position, so a fuel of the pattern length plus two
never runs out. -/
def loopGo (cfg : ParserCfg) (args : List String) (patt : List RAtom)
    (optIdx : List (Nat × OptTuple)) (noAction : Bool) (penult : Nat) :
    Nat → Nat → M Nat
  | 0, _ => mthrow PErr.fuelErr
  | fuel + 1, startIndex =>
    match maxKey optIdx with
    | none => pure startIndex
    | some m =>
      if startIndex ≤ m then do
        match minKeyGE optIdx startIndex with
        | none => mthrow (PErr.usageErr "no next option index")
        | some nextOpt =>
          if startIndex ≠ nextOpt then do
            let pe ← consumePositionals cfg args patt startIndex noAction
            if startIndex < pe then
              loopGo cfg args patt optIdx noAction penult fuel pe
            else do
              let s1 ←
                (if (assocNat optIdx pe).isNone then do
                  modifyS (fun st =>
                    { st with extras := st.extras ++ sliceList args pe nextOpt })
                  pure nextOpt
                else pure pe)
              let s2 ← consumeOptional cfg args patt optIdx s1 noAction penult
              loopGo cfg args patt optIdx noAction penult fuel s2
          else do
            let s1 ←
              (if (assocNat optIdx startIndex).isNone then do
                modifyS (fun st =>
                  { st with extras := st.extras ++ sliceList args startIndex nextOpt })
                pure nextOpt
              else pure startIndex)
            let s2 ← consumeOptional cfg args patt optIdx s1 noAction penult
            loopGo cfg args patt optIdx noAction penult fuel s2
      else pure startIndex

/-- `consume_loop` (src/argparse.py lines 2749-2791): the alternating scan,
the final positional span, and the trailing extras. -/
def consumeLoop (cfg : ParserCfg) (args : List String) (patt : List RAtom)
    (optIdx : List (Nat × OptTuple)) (noAction : Bool) (penult : Nat) : M Unit := do
  let sFinal ← loopGo cfg args patt optIdx noAction penult (patt.length + 2) 0
  let stop ← consumePositionals cfg args patt sFinal noAction
  modifyS (fun st => { st with extras := st.extras ++ args.drop stop })
  pure ()

/-- The pattern-building scan of `_parse_known_args` (src/argparse.py lines
2556-2582): one symbol per token (everything after a literal `--` is a
plain value), recording the option tuple at each option index; an
ambiguous abbreviation aborts here through `parser.error`. -/
def classifyGo (cfg : ParserCfg) :
    List String → Nat → Bool → Except PErr (List RAtom × List (Nat × OptTuple))
  | [], _, _ => Except.ok ([], [])
  | tok :: rest, i, afterDD =>
    if afterDD then
      match classifyGo cfg rest (i + 1) true with
      | Except.ok (ps, idx) => Except.ok (RAtom.chA :: ps, idx)
      | Except.error e => Except.error e
    else if tok = "--" then
      match classifyGo cfg rest (i + 1) true with
      | Except.ok (ps, idx) => Except.ok (RAtom.chD :: ps, idx)
      | Except.error e => Except.error e
    else
      match parseOptional (toOptCfg cfg) tok with
      | OptResult.positional =>
        match classifyGo cfg rest (i + 1) false with
        | Except.ok (ps, idx) => Except.ok (RAtom.chA :: ps, idx)
        | Except.error e => Except.error e
      | OptResult.ambiguous t ms => Except.error (PErr.ambigErr t ms)
      | OptResult.accept aid os ex =>
        match classifyGo cfg rest (i + 1) false with
        | Except.ok (ps, idx) => Except.ok (RAtom.chO :: ps, (i, (aid, os, ex)) :: idx)
        | Except.error e => Except.error e

/-- Token classification for a whole argument list. -/
def classify (cfg : ParserCfg) (args : List String) :
    Except PErr (List RAtom × List (Nat × OptTuple)) :=
  classifyGo cfg args 0 false

/-- Reset the extras and the positional queue before a consume loop
(src/argparse.py lines 2802-2803 and 2812-2813). -/
def resetLoopState (cfg : ParserCfg) : M Unit :=
  modifyS (fun st => { st with extras := [], positionals := positionalIds cfg })

/-- The dry-run loop (src/argparse.py lines 2801-2807): raise the sharing
threshold until the positional queue empties (or the range is exhausted,
keeping the last index). -/
def dryGo (cfg : ParserCfg) (args : List String) (patt : List RAtom)
    (optIdx : List (Nat × OptTuple)) : Nat → Nat → M Nat
  | 0, ii => pure ii
  | count + 1, ii => do
    resetLoopState cfg
    consumeLoop cfg args patt optIdx true ii
    let st ← getS
    if st.positionals.isEmpty then pure ii
    else if count = 0 then pure ii
    else dryGo cfg args patt optIdx count (ii + 1)

/-- Run the registered cross tests (src/argparse.py lines 2858-2859) — here
the constraint-group test functions — over the seen-with-non-default
actions, aborting on the first failure. -/
def runCrossTests : List NGroup → List Nat → M Unit
  | [], _ => pure ()
  | g :: rest, seen =>
    match evalGroup g seen with
    | Except.error _ => mthrow (PErr.usageErr "cross test failed")
    | Except.ok _ => runCrossTests rest seen

/-- `_parse_known_args` (src/argparse.py lines 2539-2862), omitting the
file-reference expansion (no `fromfile_prefix_chars`): classify, decide the
sharing threshold by dry runs when several variable-arity optionals
coexist with positionals, run the mutating consume loop, check required
actions, and run the cross tests.  Returns the extras. -/
def parseKnownArgsInner (cfg : ParserCfg) (args : List String) : M (List String) := do
  match classify cfg args with
  | Except.error e => mthrow e
  | Except.ok (patt, optIdx) => do
    let penult := countO patt
    let optActs := optIdx.filterMap (fun p => p.2.1.bind (findAction cfg))
    let posIds := positionalIds cfg
    let ii ←
      (if optActs.any (fun a => isNargsVariable a.nargs) ∧ ¬ posIds.isEmpty
          ∧ 1 < penult then
        dryGo cfg args patt optIdx penult 0
      else pure 0)
    resetLoopState cfg
    consumeLoop cfg args patt optIdx false ii
    let st ← getS
    let reqNames := (cfg.actions.filter
        (fun a => a.required ∧ a.id ∉ st.seenNonDefault)).map (fun a => a.dest)
    let _ ← (if reqNames.isEmpty then pure ()
      else mthrow (PErr.usageErr (String.intercalate ", " reqNames)) : M Unit)
    runCrossTests cfg.crossTests st.seenNonDefault
    let st2 ← getS
    pure st2.extras

/-- The `SUPPRESS` sentinel string, compared by identity in the source. -/
def suppressStr : String := "==SUPPRESS=="

/-- The value seeded for an absent dest: string defaults are wrapped into
`_DelayedValue` for the lazy post-pass, everything else is stored as is. -/
def defaultSeed (a : ActionCfg) : PyVal :=
  match a.defaultV with
  | PyVal.str s => PyVal.delayed a.id s
  | v => v

/-- One step of the per-action default seeding fold. -/
def seedActionDefault (ns : List (String × PyVal)) (a : ActionCfg) :
    List (String × PyVal) :=
  if a.dest ≠ suppressStr ∧ (nsGet ns a.dest).isNone ∧ a.defaultV ≠ PyVal.suppressV then
    nsSet ns a.dest (defaultSeed a)
  else ns

/-- One step of the parser-level `set_defaults` fold. -/
def seedParserDefault (ns : List (String × PyVal)) (kv : String × PyVal) :
    List (String × PyVal) :=
  if (nsGet ns kv.1).isNone then nsSet ns kv.1 kv.2 else ns

/-- The default pre-pass of `parse_known_args` (src/argparse.py lines
2502-2516): seed each absent dest with its action default, wrapping string
defaults into delayed values, then add the parser-level defaults. -/
def addDefaults (cfg : ParserCfg) : List (String × PyVal) :=
  cfg.parserDefaults.foldl seedParserDefault
    (cfg.actions.foldl seedActionDefault [])

/-- The post-pass of `parse_known_args` (src/argparse.py lines 2522-2528):
evaluate every `_DelayedValue` left in the namespace, converting the stored
default string through the captured action's converter exactly once. -/
def evalDelayedGo (cfg : ParserCfg) : List ActionCfg → M Unit
  | [] => pure ()
  | a :: rest => do
    let st ← getS
    match nsGet st.ns a.dest with
    | some (PyVal.delayed aid2 s) =>
      match findAction cfg aid2 with
      | none => mthrow (PErr.usageErr "unknown delayed action")
      | some a2 => do
        let v ← getValue a2 true s
        modifyS (fun st2 => { st2 with ns := nsSet st2.ns a.dest v })
        evalDelayedGo cfg rest
    | _ => evalDelayedGo cfg rest

/-- Delayed-default evaluation over all actions. -/
def evalDelayed (cfg : ParserCfg) : M Unit :=
  evalDelayedGo cfg cfg.actions

/-- The fresh state of one parse call over an empty namespace argument. -/
def initState (cfg : ParserCfg) : PState :=
  { ns := addDefaults cfg
    seenActions := []
    seenNonDefault := []
    extras := []
    positionals := positionalIds cfg
    events := [] }

/-- `parse_known_args` (src/argparse.py lines 2490-2537) for a `None`
namespace argument: seed defaults, run `_parse_known_args`, then evaluate
remaining delayed defaults; the final state (with its event log) is
returned alongside the result. -/
def parseKnownArgs (cfg : ParserCfg) (args : List String) :
    Except PErr (List (String × PyVal) × List String) × PState :=
  (do
    let extras ← parseKnownArgsInner cfg args
    evalDelayed cfg
    let st ← getS
    pure (st.ns, extras) : M (List (String × PyVal) × List String)) (initState cfg)

/-- The C1 scenario parser: an optional `--items` of arity one-or-more
followed by a positional `tail` of arity optional. -/
def itemsAct : ActionCfg :=
  { id := 0, optionStrings := ["--items"], dest := "items", nargs := Nargs.plus,
    defaultV := PyVal.pynone, constV := PyVal.pynone, conv := none, choices := none,
    required := false }

/-- The optional-arity trailing positional of the C1 scenario. -/
def tailAct : ActionCfg :=
  { id := 1, optionStrings := [], dest := "tail", nargs := Nargs.opt,
    defaultV := PyVal.pynone, constV := PyVal.pynone, conv := none, choices := none,
    required := false }

/-- The same trailing positional with arity exactly-one (required, as
`_get_positional_kwargs` marks it). -/
def tailOneAct : ActionCfg :=
  { id := 1, optionStrings := [], dest := "tail", nargs := Nargs.one,
    defaultV := PyVal.pynone, constV := PyVal.pynone, conv := none, choices := none,
    required := true }

/-- `--items` followed by `tail` of arity optional. -/
def itemsTailCfg : ParserCfg :=
  { actions := [itemsAct, tailAct], prefixChars := ['-'], scan := true,
    nestedHit := fun _ => false, hasNegNum := false, argsDefaultToPositional := false,
    looksLikeNumber := fun _ => false, crossTests := [], parserDefaults := [] }

/-- `--items` followed by `tail` of arity exactly-one. -/
def itemsTailOneCfg : ParserCfg :=
  { actions := [itemsAct, tailOneAct], prefixChars := ['-'], scan := true,
    nestedHit := fun _ => false, hasNegNum := false, argsDefaultToPositional := false,
    looksLikeNumber := fun _ => false, crossTests := [], parserDefaults := [] }

/-- Whether a value is a top-level `_DelayedValue` wrapper (the
`isinstance(value, _DelayedValue)` test). -/
def isDelayedTop : PyVal → Bool
  | PyVal.delayed _ _ => true
  | _ => false

/-- Whether an event is a default-value conversion of the given action. -/
def evTag (aid : Nat) (e : Ev) : Bool :=
  decide (e.aid = aid) && e.isDefault

/-- The default-value conversions of one action in an event log. -/
def defaultEvents (aid : Nat) (evs : List Ev) : List Ev :=
  evs.filter (evTag aid)

/-- The invariant a parse-monad computation preserves with respect to one
optional action `a`: the seen-with-non-default set only grows, no
default-value conversion of `a` is recorded, `a`'s namespace slot is
untouched while `a` is not in the seen set, and every namespace slot is
either untouched or holds a non-delayed value. -/
def StepOK (a : ActionCfg) {α : Type} (m : M α) : Prop :=
  ∀ st : PState,
    (∀ x, x ∈ st.seenNonDefault → x ∈ (m st).2.seenNonDefault) ∧
    defaultEvents a.id (m st).2.events = defaultEvents a.id st.events ∧
    (a.id ∉ (m st).2.seenNonDefault →
      nsGet (m st).2.ns a.dest = nsGet st.ns a.dest) ∧
    (∀ k, nsGet (m st).2.ns k = nsGet st.ns k ∨
      ∃ v, nsGet (m st).2.ns k = some v ∧ isDelayedTop v = false)

/-- Well-formedness of a parser configuration: distinct action ids and
dests, no default, const, parser-level default or converter result is a
raw `_DelayedValue` wrapper (that wrapper is created only by the default
pre-pass of `parse_known_args`). -/
def WFParser (cfg : ParserCfg) : Prop :=
  (cfg.actions.map (fun x => x.id)).Nodup ∧
  (cfg.actions.map (fun x => x.dest)).Nodup ∧
  (∀ b ∈ cfg.actions,
    isDelayedTop b.defaultV = false ∧ isDelayedTop b.constV = false) ∧
  (∀ b ∈ cfg.actions, ∀ f, b.conv = some f →
    ∀ s v, f s = Except.ok v → isDelayedTop v = false) ∧
  (∀ kv ∈ cfg.parserDefaults, isDelayedTop kv.2 = false)

/-- A computation that can only append conversion events: every other state
field is left unchanged. -/
def EventsOnly {α : Type} (m : M α) : Prop :=
  ∀ st : PState,
    (m st).2.ns = st.ns ∧ (m st).2.seenActions = st.seenActions ∧
    (m st).2.seenNonDefault = st.seenNonDefault ∧ (m st).2.extras = st.extras ∧
    (m st).2.positionals = st.positionals

/-- Postcondition on the value a computation returns when it succeeds. -/
def OkPost {α : Type} (m : M α) (P : α → Prop) : Prop :=
  ∀ st x st2, m st = (Except.ok x, st2) → P x

/-- The C8 counterexample parser: a positional `p1` of arity optional with
the string default `D` (and the identity converter), followed by a
required positional `p2` of arity one whose int-style converter rejects
every token. -/
def p1Act : ActionCfg :=
  { id := 0, optionStrings := [], dest := "p1", nargs := Nargs.opt,
    defaultV := PyVal.str "D", constV := PyVal.pynone, conv := none,
    choices := none, required := false }

/-- The failing-converter positional of the C8 counterexample. -/
def p2Act : ActionCfg :=
  { id := 1, optionStrings := [], dest := "p2", nargs := Nargs.one,
    defaultV := PyVal.pynone, constV := PyVal.pynone,
    conv := some (fun _ => Except.error "invalid int value"),
    choices := none, required := true }

/-- The C8 counterexample parser configuration. -/
def delayedCfg : ParserCfg :=
  { actions := [p1Act, p2Act], prefixChars := ['-'], scan := true,
    nestedHit := fun _ => false, hasNegNum := false,
    argsDefaultToPositional := false, looksLikeNumber := fun _ => false,
    crossTests := [], parserDefaults := [] }

/-! ## Conflict resolution under the inherit-aware policy
(`_handle_conflict_parent`, src/sample3.py lines 52-121)

The container graph is embedded as an arena indexed by ids: each action id
maps to its `option_strings`, its optional `containers` list of
(parser, group) ownership pairs (absent when `_add_container_actions` never
recorded one), and its `container` back-reference; each group id maps to
its `_group_actions` and its owning parser (whose `_actions` and
`_option_string_actions` the group shares); each parser id maps to its
`_actions`, its `_action_groups` and its `_option_string_actions` index. -/

/-- Per-action mutable state. -/
structure ActSt where
  optionStrings : List String
  containers : Option (List (Nat × Nat))
  container : Nat

/-- The container-graph arena. -/
structure CState where
  acts : Nat → ActSt
  gActs : Nat → List Nat
  gParser : Nat → Nat
  pActions : Nat → List Nat
  pGroups : Nat → List Nat
  pIndex : Nat → List (String × Nat)

/-- Pointwise function update. -/
def fupd {α : Type} (f : Nat → α) (k : Nat) (v : α) : Nat → α :=
  fun n => if n = k then v else f n

/-- `dict.pop(key, None)` on the option-string index. -/
def popKey (l : List (String × Nat)) (k : String) : List (String × Nat) :=
  l.filter (fun p => decide (p.1 ≠ k))

/-- `del action.containers[i]` for the first `i` whose group is
`container` (no change when no entry matches). -/
def eraseFirstGroup : List (Nat × Nat) → Nat → List (Nat × Nat)
  | [], _ => []
  | pg :: rest, g => if pg.2 = g then rest else pg :: eraseFirstGroup rest g

/-- `find_parser` (src/sample3.py lines 58-79): when the action records no
`containers` list, report one owner, the action's `container`; otherwise
scan the recorded (parser, group) pairs for the first whose parser has the
adding group among its `_action_groups`, reporting the pair count and that
group (or no group when none matches). -/
def findParser (st : CState) (selfG : Nat) (aid : Nat) : Nat × Option Nat :=
  match (st.acts aid).containers with
  | none => (1, some ((st.acts aid).container))
  | some l =>
    match l.find? (fun pg => decide (selfG ∈ st.pGroups pg.1)) with
    | some pg => (l.length, some pg.2)
    | none => (l.length, none)

/-- `remove_action` (src/sample3.py lines 81-94): remove the action from
the group's shared parser `_actions` list and from the group's
`_group_actions` (Python `list.remove` raises on a missing element), delete
the first matching (parser, group) ownership pair, and assert that an
action left with owners always retains option strings. -/
def removeActionFrom (st : CState) (aid : Nat) (g : Nat) : Except String CState :=
  if aid ∈ st.pActions (st.gParser g) then
    if aid ∈ st.gActs g then
      let st1 : CState :=
        { st with
          pActions := fupd st.pActions (st.gParser g)
            ((st.pActions (st.gParser g)).erase aid)
          gActs := fupd st.gActs g ((st.gActs g).erase aid) }
      match (st1.acts aid).containers with
      | none => Except.ok st1
      | some l =>
        let l2 := eraseFirstGroup l g
        let a2 : ActSt := { st1.acts aid with containers := some l2 }
        let st2 : CState := { st1 with acts := fupd st1.acts aid a2 }
        if 0 < l2.length ∧ (st2.acts aid).optionStrings = [] then
          Except.error "Action in parser with no option_strings"
        else
          Except.ok st2
    else
      Except.error "x not in list"
  else
    Except.error "x not in list"

/-- `_handle_conflict_parent` (src/sample3.py lines 96-121): for each
colliding (option string, owning action) pair, locate the owner in the
adding parser; an action with several ownership pairs is removed wholesale
from that owner only, its option strings popped from the adding container's
index but left on the action; an action with a single owner has just the
colliding string detached (from the action and the index), and is removed
from its container only when no option strings remain. -/
def handleConflictParent (st : CState) (selfG : Nat) :
    List (String × Nat) → Except String CState
  | [] => Except.ok st
  | (s, aid) :: rest =>
    let fp := findParser st selfG aid
    match fp.2 with
    | none => handleConflictParent st selfG rest
    | some cont =>
      if 1 < fp.1 then
        if aid ∈ st.pActions (st.gParser cont) then
          match removeActionFrom st aid cont with
          | Except.error e => Except.error e
          | Except.ok st1 =>
            let selfP := st1.gParser selfG
            let ix2 := ((st1.acts aid).optionStrings).foldl popKey (st1.pIndex selfP)
            let st2 : CState := { st1 with pIndex := fupd st1.pIndex selfP ix2 }
            handleConflictParent st2 selfG rest
        else
          handleConflictParent st selfG rest
      else
        let strs := (st.acts aid).optionStrings
        if s ∈ strs then
          let strs2 := strs.erase s
          let st1 : CState :=
            { st with
              acts := fupd st.acts aid { st.acts aid with optionStrings := strs2 }
              pIndex := fupd st.pIndex (st.gParser selfG)
                (popKey (st.pIndex (st.gParser selfG)) s) }
          if strs2 = [] then
            match removeActionFrom st1 aid cont with
            | Except.error e => Except.error e
            | Except.ok st2 => handleConflictParent st2 selfG rest
          else
            handleConflictParent st1 selfG rest
        else
          Except.error "x not in list"

/-- The witness arena for the inherit-aware policy: action 100 (strings
`-f`, `--foo`) is shared by a parent parser 0 (group 10) and two descendant
parsers 1 and 2 (groups 11 and 12); group 21 is the descendant parser 1's
own group performing a conflicting add. -/
def sharedArena : CState :=
  { acts := fun a =>
      if a = 100 then
        { optionStrings := ["-f", "--foo"]
          containers := some [(0, 10), (1, 11), (2, 12)]
          container := 12 }
      else
        { optionStrings := [], containers := none, container := 0 }
    gActs := fun g => if g = 10 ∨ g = 11 ∨ g = 12 then [100] else []
    gParser := fun g => if g = 10 then 0 else if g = 11 ∨ g = 21 then 1 else 2
    pActions := fun _ => [100]
    pGroups := fun p => if p = 0 then [10] else if p = 1 then [11, 21] else [12]
    pIndex := fun _ => [("-f", 100), ("--foo", 100)] }

/-- The per-action side conditions under which the matching phase
preserves the `StepOK` invariant for a watched optional action `a`: every
action either is `a` itself (which must have option strings) or has an id
and dest distinct from `a`, and no default, const or converter result is
a raw delayed wrapper. -/
def CfgOK (cfg : ParserCfg) (a : ActionCfg) : Prop :=
  (∀ b ∈ cfg.actions, (b.id = a.id ∧ b.optionStrings ≠ []) ∨
    (b.id ≠ a.id ∧ b.dest ≠ a.dest)) ∧
  (∀ b ∈ cfg.actions, isDelayedTop b.defaultV = false ∧
    isDelayedTop b.constV = false) ∧
  (∀ b ∈ cfg.actions, ∀ f, b.conv = some f →
    ∀ s v, f s = Except.ok v → isDelayedTop v = false)

/-- Every delayed wrapper in a namespace traces back to the default
pre-pass: the slot is some action's dest and the wrapper carries that
action's id and string default. -/
def DelayedOrigin (cfg : ParserCfg) (ns : List (String × PyVal)) : Prop :=
  ∀ k t s, nsGet ns k = some (PyVal.delayed t s) →
    ∃ b, b ∈ cfg.actions ∧ b.dest = k ∧ b.id = t ∧ b.defaultV = PyVal.str s

/-- A single optional action with a string default, for exercising the
delayed-default post-pass. -/
def optDefAct : ActionCfg :=
  { id := 0, optionStrings := ["-x"], dest := "x", nargs := Nargs.one,
    defaultV := PyVal.str "D", constV := PyVal.pynone, conv := none,
    choices := none, required := false }

/-- A parser holding only `optDefAct`. -/
def optDefCfg : ParserCfg :=
  { actions := [optDefAct], prefixChars := ['-'], scan := true,
    nestedHit := fun _ => false, hasNegNum := false,
    argsDefaultToPositional := false, looksLikeNumber := fun _ => false,
    crossTests := [], parserDefaults := [] }

/-! # Theorems settling the claims -/

/-! ### Theorems about the constraint-group tests -/

/-- Claim C2: for an exclusive-kind (`mxg`) constraint group whose child
count (direct action children seen plus nested children evaluating as
satisfied) is `k`, evaluation raises an error exactly when `k > 1`, or when
the group is required and `k = 0`; in particular with `k = 1` no error is
raised, whatever the declaration order of the children. -/
theorem mxg_error_iff (dest : String) (req : Bool)
    (children : List ((Nat × String) ⊕ NGroup)) (seen : List Nat) (k : Nat)
    (h : countActions children seen = Except.ok k) :
    (∃ e, evalGroup (NGroup.mk GKind.mxg dest req children) seen = Except.error e) ↔
      (1 < k ∨ (k = 0 ∧ req = true)) := by
  simp only [evalGroup, h]
  by_cases h1 : 1 < k
  · simp [h1]
  · by_cases h2 : k = 0 ∧ req = true
    · simp [h1, h2]
    · simp [h1, h2]

/-- Witness for C2: children A and B with only the second-declared child
seen, group required: `k = 1` and no error is raised. -/
theorem mxg_error_iff_witness :
    ¬ (∃ e, evalGroup (NGroup.mk GKind.mxg "g" true
        [Sum.inl (1, "A"), Sum.inl (2, "B")]) [2] = Except.error e) := by
  intro hx
  have hc : countActions [Sum.inl (1, "A"), Sum.inl (2, "B")] ([2] : List Nat) =
      Except.ok 1 := by
    simp [countActions, groupsOkCount, actSeenCount]
  have := (mxg_error_iff "g" true [Sum.inl (1, "A"), Sum.inl (2, "B")] [2] 1 hc).mp hx
  simp at this

/-- Claim C5: for an inclusive-kind (`inc`) constraint group with `n` direct
children and seen-count `k`, evaluation raises an error exactly when
`0 < k < n`, or when the group is required and `k = 0`; with `k = 0` (not
required) or `k = n` no error is raised. -/
theorem inc_error_iff (dest : String) (req : Bool)
    (children : List ((Nat × String) ⊕ NGroup)) (seen : List Nat) (k : Nat)
    (h : countActions children seen = Except.ok k) :
    (∃ e, evalGroup (NGroup.mk GKind.inc dest req children) seen = Except.error e) ↔
      ((0 < k ∧ k < children.length) ∨ (k = 0 ∧ req = true)) := by
  simp only [evalGroup, h]
  by_cases h1 : 0 < k
  · by_cases h2 : k < children.length
    · simp [h1, h2]
    · simp [h1, h2, Nat.pos_iff_ne_zero.mp h1]
  · have hk : k = 0 := Nat.eq_zero_of_not_pos h1
    by_cases h3 : req = true
    · simp [h1, hk, h3]
    · simp [h1, hk, h3]

/-- Witness for C5: children A and B with both seen (`k = n = 2`), group
required: no error is raised. -/
theorem inc_error_iff_witness :
    ¬ (∃ e, evalGroup (NGroup.mk GKind.inc "g" true
        [Sum.inl (1, "A"), Sum.inl (2, "B")]) [1, 2] = Except.error e) := by
  intro hx
  have hc : countActions [Sum.inl (1, "A"), Sum.inl (2, "B")] ([1, 2] : List Nat) =
      Except.ok 2 := by
    simp [countActions, groupsOkCount, actSeenCount]
  have := (inc_error_iff "g" true [Sum.inl (1, "A"), Sum.inl (2, "B")] [1, 2] 2 hc).mp hx
  simp at this

/-- Claim C4: a negated constraint node with a single child evaluates to the
logical negation of that child's satisfaction and raises no error of its
own (the node's evaluation is modelled from the spec, this kind's
implementation being absent from the source files). -/
theorem negated_eval (child : (Nat × String) ⊕ NGroup) (seen : List Nat) (s : Bool)
    (h : evalChild child seen = Except.ok s) :
    evalNegated child seen = Except.ok (!s) := by
  simp only [evalNegated, h]

/-- Witness for C4: an unseen action child is unsatisfied, so the negated
node evaluates to true. -/
theorem negated_eval_witness :
    evalNegated (Sum.inl (5, "x")) [] = Except.ok true :=
  negated_eval (Sum.inl (5, "x")) [] false rfl

/-- Claim C7: checking a list of converted values against a configured
choice set raises no error exactly when every value is a member, and
otherwise raises one error carrying the action's identity and exactly the
list of all violating values (not only the first). -/
theorem check_values_spec (aid : Nat) (cs : List PyVal) (vs : List PyVal) :
    (checkValues aid (some cs) (PyVal.plist vs) = Except.ok () ↔ ∀ x ∈ vs, x ∈ cs) ∧
    ((∃ x ∈ vs, x ∉ cs) → checkValues aid (some cs) (PyVal.plist vs) =
        Except.error (PErr.choiceErr aid (vs.filter (fun x => decide (x ∉ cs))))) := by
  have key : ((vs.filter (fun x => decide (x ∉ cs))).isEmpty = true) ↔
      (∀ x ∈ vs, x ∈ cs) := by
    simp only [List.isEmpty_iff, List.filter_eq_nil_iff, decide_eq_true_eq]
    constructor
    · intro h x hx
      by_contra hc
      exact h x hx hc
    · intro h x hx hc
      exact hc (h x hx)
  constructor
  · by_cases h : (vs.filter (fun x => decide (x ∉ cs))).isEmpty = true
    · simp only [checkValues, h, if_true]
      simp only [true_iff]
      exact key.mp h
    · simp only [checkValues]
      rw [if_neg h]
      constructor
      · intro habs
        exact absurd habs (by simp)
      · intro hall
        exact absurd (key.mpr hall) h
  · intro hex
    have h : ¬ ((vs.filter (fun x => decide (x ∉ cs))).isEmpty = true) := by
      intro hc
      obtain ⟨x, hx, hxc⟩ := hex
      exact hxc (key.mp hc x hx)
    simp only [checkValues]
    rw [if_neg h]

/-- Witness for C7: values a, z, q against choices a, b; both violators z
and q are reported together with the action's id. -/
theorem check_values_spec_witness :
    checkValues 7 (some [PyVal.str "a", PyVal.str "b"])
        (PyVal.plist [PyVal.str "a", PyVal.str "z", PyVal.str "q"]) =
      Except.error (PErr.choiceErr 7 [PyVal.str "z", PyVal.str "q"]) := by
  have h := (check_values_spec 7 [PyVal.str "a", PyVal.str "b"]
      [PyVal.str "a", PyVal.str "z", PyVal.str "q"]).2 (by decide)
  simpa using h

/-- Claim C10: a positional action's required flag is set exactly when its
arity is neither `'?'` nor `'*'` (so bounded-range, remainder, fixed-count
and default arities are marked required), and explicitly passing a
`required` keyword for a positional is rejected at configuration time. -/
theorem positional_kwargs_spec (dest : String) (nargs : Nargs) :
    (∀ kw, getPositionalKwargs dest nargs true ≠ Except.ok kw) ∧
    (∃ kw, getPositionalKwargs dest nargs false = Except.ok kw ∧
        kw.optionStrings = [] ∧
        (kw.required = true ↔ (nargs ≠ Nargs.opt ∧ nargs ≠ Nargs.star))) := by
  constructor
  · intro kw
    simp [getPositionalKwargs]
  · refine ⟨PosKw.mk (dest.replace "-" "_") []
        (if nargs ≠ Nargs.opt ∧ nargs ≠ Nargs.star then true else false) nargs,
        by simp [getPositionalKwargs], rfl, ?_⟩
    by_cases h : nargs ≠ Nargs.opt ∧ nargs ≠ Nargs.star
    · simp [h]
    · simp [h]

/-- Witness for C10: a bounded-range positional is marked required, and
passing `required` explicitly is rejected. -/
theorem positional_kwargs_spec_witness :
    (∀ kw, getPositionalKwargs "a-b" (Nargs.rep 2 (some 4)) true ≠ Except.ok kw) ∧
    (∃ kw, getPositionalKwargs "a-b" (Nargs.rep 2 (some 4)) false = Except.ok kw ∧
        kw.required = true) := by
  obtain ⟨h1, kw, h2, _, h4⟩ := positional_kwargs_spec "a-b" (Nargs.rep 2 (some 4))
  exact ⟨h1, kw, h2, h4.mpr (by decide)⟩

/-- Claim C6: once `_parse_optional` reaches prefix-based resolution (the
token is option-shaped, not an exact match, not found in a subparser, longer
than one character, and not an exact match before `=`), more than one
collected candidate yields the ambiguity error naming every candidate
match, and exactly one collected candidate is accepted. -/
theorem option_resolution_spec (cfg : OptCfg) (arg : String) (c : Char)
    (hhead : strHead arg = some c)
    (hpre : c ∈ cfg.prefixChars)
    (hexact : assocLookup cfg.index arg = none)
    (hnest : (cfg.scan && cfg.nestedHit arg) = false)
    (hlen : ¬ arg.length = 1)
    (heq : ∀ p e, splitFirstEq arg = some (p, e) → assocLookup cfg.index p = none) :
    (1 < (getOptionTuples cfg arg).length →
        parseOptional cfg arg =
          OptResult.ambiguous arg ((getOptionTuples cfg arg).map (fun t => t.2.1))) ∧
    (∀ t, getOptionTuples cfg arg = [t] →
        parseOptional cfg arg = OptResult.accept (some t.1) t.2.1 t.2.2) := by
  have hred : parseOptional cfg arg =
      (if 1 < (getOptionTuples cfg arg).length then
        OptResult.ambiguous arg ((getOptionTuples cfg arg).map (fun t => t.2.1))
      else
        match getOptionTuples cfg arg with
        | [t] => OptResult.accept (some t.1) t.2.1 t.2.2
        | _ =>
          if cfg.argsDefaultToPositional then OptResult.positional
          else if !cfg.hasNegNum && cfg.looksLikeNumber arg then
            OptResult.positional
          else if ' ' ∈ arg.data then OptResult.positional
          else OptResult.accept none arg none) := by
    rw [parseOptional, hhead]
    simp only [hpre, if_true, hexact, hnest, Bool.false_eq_true, if_false, hlen]
    cases hsp : splitFirstEq arg with
    | none => rfl
    | some pe =>
      obtain ⟨p, e⟩ := pe
      simp only [heq p e hsp]
  constructor
  · intro h1
    rw [hred, if_pos h1]
  · intro t ht
    have hn1 : ¬ 1 < (getOptionTuples cfg arg).length := by
      rw [ht]
      simp
    rw [hred, if_neg hn1, ht]

/-- Witness for C6: with registered options `--foo` and `--foobar`, the
abbreviation `--fo` collects both candidates and is classified as the
ambiguity error naming both. -/
theorem option_resolution_spec_witness :
    1 < (getOptionTuples fooCfg "--fo").length ∧
    parseOptional fooCfg "--fo" =
      OptResult.ambiguous "--fo" ["--foo", "--foobar"] := by
  have h := (option_resolution_spec fooCfg "--fo" '-' rfl (by decide) (by decide)
      (by decide) (by decide)
      (fun p e hsp => by
        rw [(by decide : splitFirstEq "--fo" = (none : Option (String × String)))] at hsp
        cases hsp)).1 (by decide)
  refine ⟨by decide, ?_⟩
  rw [h]
  decide

/-- Claim C9 (amended): a token that is empty or a single character is
classified as a plain positional value provided it is not itself a
registered option string and is not found in a subparser; in particular a
lone prefix character is positional whenever it is not registered. -/
theorem short_token_positional (cfg : OptCfg) (arg : String)
    (hlen : arg.length ≤ 1)
    (hexact : assocLookup cfg.index arg = none)
    (hnest : (cfg.scan && cfg.nestedHit arg) = false) :
    parseOptional cfg arg = OptResult.positional := by
  rw [parseOptional]
  cases hh : strHead arg with
  | none => rfl
  | some c =>
    by_cases hc : c ∈ cfg.prefixChars
    · simp only [hc, if_true, hexact, hnest, Bool.false_eq_true, if_false]
      have h1 : arg.length = 1 := by
        have : arg.data ≠ [] := by
          intro hnil
          rw [strHead, hnil] at hh
          cases hh
        have hpos : 0 < arg.length := by
          rw [String.length]
          exact List.length_pos.mpr this
        omega
      rw [if_pos h1]
    · simp only [hc, if_false]

/-- Counterexample for C9: in a parser where the option string `-` is
registered, the single-character token `-` is an exact match and is
classified as that option, not as a positional value. -/
theorem single_char_counterexample :
    parseOptional dashCfg "-" = OptResult.accept (some 0) "-" none ∧
    ¬ parseOptional dashCfg "-" = OptResult.positional := by
  constructor
  · decide
  · decide

/-- Witness for C9 (amended): with no single-character option registered, a
lone `-` is classified as a positional value. -/
theorem short_token_positional_witness :
    parseOptional fooCfg "-" = OptResult.positional :=
  short_token_positional fooCfg "-" (by decide) (by decide) (by decide)

/-- Pointwise update at the updated key. -/
theorem fupd_same {α : Type} (f : Nat → α) (k : Nat) (v : α) : fupd f k v k = v := by
  simp [fupd]

/-- Pointwise update away from the updated key. -/
theorem fupd_ne {α : Type} (f : Nat → α) (k : Nat) (v : α) (n : Nat) (h : n ≠ k) :
    fupd f k v n = f n := by
  simp [fupd, h]

/-- Two pointwise updates at the same key collapse to the second. -/
theorem fupd_fupd_same {α : Type} (f : Nat → α) (k : Nat) (v w : α) :
    fupd (fupd f k v) k w = fupd f k w := by
  funext n
  by_cases h : n = k <;> simp [fupd, h]

/-- Claim C3: under the inherit-aware conflict policy, a colliding action
whose ownership list records more than one (parser, group) pair is removed
wholesale from only the owner inside the adding parser — its option strings
and every other owning group, parser and index are unchanged; a colliding
action with exactly one recorded owner has only the colliding option string
detached, the action being removed from its container only when no option
strings remain, as under replace-strings. -/
theorem conflict_parent_spec (st : CState) (selfG : Nat) (s : String) (aid : Nat)
    (l : List (Nat × Nat)) (p g : Nat)
    (hcont : (st.acts aid).containers = some l)
    (hfind : l.find? (fun pg => decide (selfG ∈ st.pGroups pg.1)) = some (p, g))
    (hgp : st.gParser g = p)
    (hsp : st.gParser selfG = p) :
    (1 < l.length → aid ∈ st.pActions p → aid ∈ st.gActs g →
      (st.acts aid).optionStrings ≠ [] →
      ∃ st2, handleConflictParent st selfG [(s, aid)] = Except.ok st2 ∧
        (st2.acts aid).optionStrings = (st.acts aid).optionStrings ∧
        st2.gActs g = (st.gActs g).erase aid ∧
        (∀ g2, g2 ≠ g → st2.gActs g2 = st.gActs g2) ∧
        st2.pActions p = (st.pActions p).erase aid ∧
        (∀ q, q ≠ p → st2.pActions q = st.pActions q) ∧
        (st2.acts aid).containers = some (eraseFirstGroup l g) ∧
        (∀ b, b ≠ aid → st2.acts b = st.acts b) ∧
        st2.pIndex p = ((st.acts aid).optionStrings).foldl popKey (st.pIndex p) ∧
        (∀ q, q ≠ p → st2.pIndex q = st.pIndex q)) ∧
    (l.length = 1 → s ∈ (st.acts aid).optionStrings →
      (st.acts aid).optionStrings.erase s ≠ [] →
      ∃ st2, handleConflictParent st selfG [(s, aid)] = Except.ok st2 ∧
        (st2.acts aid).optionStrings = (st.acts aid).optionStrings.erase s ∧
        (∀ g2, st2.gActs g2 = st.gActs g2) ∧
        (∀ q, st2.pActions q = st.pActions q) ∧
        (st2.acts aid).containers = some l ∧
        st2.pIndex p = popKey (st.pIndex p) s ∧
        (∀ q, q ≠ p → st2.pIndex q = st.pIndex q)) ∧
    (l.length = 1 → s ∈ (st.acts aid).optionStrings →
      (st.acts aid).optionStrings.erase s = [] →
      aid ∈ st.pActions p → aid ∈ st.gActs g →
      ∃ st2, handleConflictParent st selfG [(s, aid)] = Except.ok st2 ∧
        (st2.acts aid).optionStrings = [] ∧
        st2.gActs g = (st.gActs g).erase aid ∧
        (∀ g2, g2 ≠ g → st2.gActs g2 = st.gActs g2) ∧
        st2.pActions p = (st.pActions p).erase aid ∧
        (∀ q, q ≠ p → st2.pActions q = st.pActions q) ∧
        (st2.acts aid).containers = some (eraseFirstGroup l g)) := by
  have hfp : findParser st selfG aid = (l.length, some g) := by
    simp only [findParser, hcont, hfind]
  refine ⟨?caseA, ?caseB1, ?caseB2⟩
  case caseA =>
    intro h1 h2 h3 h4
    have hrun : handleConflictParent st selfG [(s, aid)] =
        Except.ok (CState.mk
          (fupd st.acts aid (ActSt.mk (st.acts aid).optionStrings
            (some (eraseFirstGroup l g)) (st.acts aid).container))
          (fupd st.gActs g ((st.gActs g).erase aid))
          st.gParser
          (fupd st.pActions p ((st.pActions p).erase aid))
          st.pGroups
          (fupd st.pIndex p
            (((st.acts aid).optionStrings).foldl popKey (st.pIndex p)))) := by
      simp only [handleConflictParent, hfp]
      rw [if_pos h1, hgp, if_pos h2]
      simp only [removeActionFrom, hgp]
      rw [if_pos h2, if_pos h3]
      simp only [hcont, fupd_same]
      rw [if_neg (fun hand => h4 hand.2)]
      simp only [handleConflictParent, hsp, fupd_same]
    refine ⟨_, hrun, ?_, ?_, ?_, ?_, ?_, ?_, ?_, ?_, ?_⟩
    · simp [fupd_same]
    · simp [fupd_same]
    · intro g2 hg2
      simp [fupd_ne _ _ _ _ hg2]
    · simp [fupd_same]
    · intro q hq
      simp [fupd_ne _ _ _ _ hq]
    · simp [fupd_same]
    · intro b hb
      simp [fupd_ne _ _ _ _ hb]
    · simp [fupd_same]
    · intro q hq
      simp [fupd_ne _ _ _ _ hq]
  case caseB1 =>
    intro h1 h2 h3
    have hn1 : ¬ 1 < l.length := by omega
    have hrun : handleConflictParent st selfG [(s, aid)] =
        Except.ok (CState.mk
          (fupd st.acts aid (ActSt.mk ((st.acts aid).optionStrings.erase s)
            (some l) (st.acts aid).container))
          st.gActs
          st.gParser
          st.pActions
          st.pGroups
          (fupd st.pIndex p (popKey (st.pIndex p) s))) := by
      simp only [handleConflictParent, hfp]
      rw [if_neg hn1, if_pos h2]
      simp only [hsp, fupd_same, hcont]
      rw [if_neg h3]
    refine ⟨_, hrun, ?_, ?_, ?_, ?_, ?_, ?_⟩
    · simp [fupd_same]
    · intro g2
      simp
    · intro q
      simp
    · simp [fupd_same]
    · simp [fupd_same]
    · intro q hq
      simp [fupd_ne _ _ _ _ hq]
  case caseB2 =>
    intro h1 h2 h3 h4 h5
    have hn1 : ¬ 1 < l.length := by omega
    have hl2 : eraseFirstGroup l g = [] := by
      have hmem : (p, g) ∈ l := List.mem_of_find?_eq_some hfind
      cases l with
      | nil => cases hmem
      | cons hd tl =>
        have hlen0 : tl.length = 0 := by
          have h1b := h1
          simp only [List.length_cons] at h1b
          omega
        have htl : tl = [] := List.length_eq_zero.mp hlen0
        subst htl
        have hhd : hd = (p, g) := (List.mem_singleton.mp hmem).symm
        subst hhd
        simp [eraseFirstGroup]
    have hrun : handleConflictParent st selfG [(s, aid)] =
        Except.ok (CState.mk
          (fupd st.acts aid (ActSt.mk [] (some []) (st.acts aid).container))
          (fupd st.gActs g ((st.gActs g).erase aid))
          st.gParser
          (fupd st.pActions p ((st.pActions p).erase aid))
          st.pGroups
          (fupd st.pIndex p (popKey (st.pIndex p) s))) := by
      simp only [handleConflictParent, hfp]
      rw [if_neg hn1, if_pos h2]
      simp only [hsp, fupd_same, hcont]
      rw [if_pos h3]
      simp only [removeActionFrom, hgp, fupd_same, fupd_ne, hcont]
      rw [if_pos h4, if_pos h5]
      simp only [fupd_same, hcont, hl2, h3]
      simp only [handleConflictParent, List.length_nil]
      rw [if_neg (by simp)]
      simp [h3, hl2, fupd_fupd_same]
    refine ⟨_, hrun, ?_, ?_, ?_, ?_, ?_, ?_⟩
    · simp [fupd_same]
    · simp [fupd_same]
    · intro g2 hg2
      simp [fupd_ne _ _ _ _ hg2]
    · simp [fupd_same]
    · intro q hq
      simp [fupd_ne _ _ _ _ hq]
    · simp [fupd_same, hl2]


/-- Witness for C3: action 100 is owned by a parent parser and two
descendants; a conflicting add in descendant parser 1 removes it from
parser 1's group only, leaving its option strings and the other two owners
(and their indexes) intact. -/
theorem conflict_parent_spec_witness :
    ∃ st2, handleConflictParent sharedArena 21 [("-f", 100)] = Except.ok st2 ∧
      (st2.acts 100).optionStrings = ["-f", "--foo"] ∧
      st2.gActs 11 = [] ∧ st2.gActs 10 = [100] ∧ st2.gActs 12 = [100] ∧
      st2.pActions 1 = [] ∧ st2.pActions 0 = [100] ∧ st2.pActions 2 = [100] ∧
      (st2.acts 100).containers = some [(0, 10), (2, 12)] ∧
      st2.pIndex 1 = [] ∧ st2.pIndex 0 = [("-f", 100), ("--foo", 100)] := by
  have hA := (conflict_parent_spec sharedArena 21 "-f" 100 [(0, 10), (1, 11), (2, 12)]
      1 11 (by decide) (by decide) (by decide) (by decide)).1
      (by decide) (by decide) (by decide) (by decide)
  obtain ⟨st2, hrun, hstr, hg, hgo, hp, hpo, hcs, hacts, hix, hixo⟩ := hA
  refine ⟨st2, hrun, ?_, ?_, ?_, ?_, ?_, ?_, ?_, ?_, ?_, ?_⟩
  · rw [hstr]
    decide
  · rw [hg]
    decide
  · rw [hgo 10 (by decide)]
    decide
  · rw [hgo 12 (by decide)]
    decide
  · rw [hp]
    decide
  · rw [hpo 0 (by decide)]
    decide
  · rw [hpo 2 (by decide)]
    decide
  · rw [hcs]
    decide
  · rw [hix]
    decide
  · rw [hixo 0 (by decide)]
    decide


/-- Counterexample for C1: with `--items` of arity one-or-more followed by
`tail` of arity optional, parsing `--items 1 2 3 x` assigns all four
values to `items` and leaves `tail` at its default `None` — not
`items=['1','2','3']`, `tail='x'` as claimed.  The positional-span matcher
run with the option prepended assigns the optional-arity positional zero
tokens (its pattern matches the empty string, and the option's greedy
pattern is tried first), so the cap it produces equals the greedy maximum. -/
theorem shared_slot_counterexample :
    (parseKnownArgs itemsTailCfg ["--items", "1", "2", "3", "x"]).1 =
      Except.ok ([("items", PyVal.plist
          [PyVal.str "1", PyVal.str "2", PyVal.str "3", PyVal.str "x"]),
        ("tail", PyVal.pynone)], []) ∧
    ¬ nsGet [("items", PyVal.plist
          [PyVal.str "1", PyVal.str "2", PyVal.str "3", PyVal.str "x"]),
        ("tail", PyVal.pynone)] "items" =
      some (PyVal.plist [PyVal.str "1", PyVal.str "2", PyVal.str "3"]) ∧
    ¬ nsGet [("items", PyVal.plist
          [PyVal.str "1", PyVal.str "2", PyVal.str "3", PyVal.str "x"]),
        ("tail", PyVal.pynone)] "tail" = some (PyVal.str "x") := by
  refine ⟨?_, ?_, ?_⟩
  · decide
  · decide
  · decide

/-- Claim C1 (amended): on `--items 1 2 3 x`, the variable-arity option's
consumption is capped at the count the positional-span matcher (with the
option prepended as a virtual action) assigns it, but for a trailing
positional of arity optional that count is the greedy maximum (the
zero-width positional is starved), giving `items=['1','2','3','x']` and
`tail=None`; with a trailing positional of arity exactly-one the cap binds
and the same input gives `items=['1','2','3']` and `tail='x'`. -/
theorem shared_slot_amended :
    (parseKnownArgs itemsTailCfg ["--items", "1", "2", "3", "x"]).1 =
      Except.ok ([("items", PyVal.plist
          [PyVal.str "1", PyVal.str "2", PyVal.str "3", PyVal.str "x"]),
        ("tail", PyVal.pynone)], []) ∧
    (parseKnownArgs itemsTailOneCfg ["--items", "1", "2", "3", "x"]).1 =
      Except.ok ([("items", PyVal.plist
          [PyVal.str "1", PyVal.str "2", PyVal.str "3"]),
        ("tail", PyVal.str "x")], []) := by
  refine ⟨?_, ?_⟩
  · decide
  · decide


/-- Counterexample for C8: in a parser with a positional `p1` of arity
optional whose default is the string `D`, followed by a positional `p2`
whose converter rejects its token, parsing `['v']` converts `p1`'s string
default during the matching phase (`_get_values`, the `using_default`
branch for an optional-arity positional matched zero-width), before the
conversion error of `p2`'s explicitly supplied argument is raised — and
`p1` is not seen.  So a not-seen action's string default can be converted
before the matching phase completes, and a real-argument validation error
can be raised after it. -/
theorem delayed_default_counterexample :
    (parseKnownArgs delayedCfg ["v"]).1 =
      Except.error (PErr.argErr (some 1) "invalid int value") ∧
    (parseKnownArgs delayedCfg ["v"]).2.events =
      [Ev.mk 0 "D" true, Ev.mk 1 "v" false] ∧
    0 ∉ (parseKnownArgs delayedCfg ["v"]).2.seenNonDefault := by
  refine ⟨?_, ?_, ?_⟩
  · decide
  · decide
  · decide


/-- Unfolding of bind in the parse monad. -/
theorem bindM_run {α β : Type} (m : M α) (f : α → M β) (st : PState) :
    (m >>= f) st = match m st with
      | (Except.ok x, st2) => f x st2
      | (Except.error e, st2) => (Except.error e, st2) := rfl

/-- Unfolding of pure in the parse monad. -/
theorem pureM_run {α : Type} (x : α) (st : PState) :
    (pure x : M α) st = (Except.ok x, st) := rfl

/-- A computation that leaves the state unchanged preserves the invariant. -/
theorem stepOK_of_fixed (a : ActionCfg) {α : Type} (m : M α)
    (h : ∀ st, (m st).2 = st) : StepOK a m := by
  intro st
  rw [h st]
  exact ⟨fun x hx => hx, rfl, fun _ => rfl, fun k => Or.inl rfl⟩

/-- Pure computations preserve the invariant. -/
theorem stepOK_pure (a : ActionCfg) {α : Type} (x : α) : StepOK a (pure x : M α) :=
  stepOK_of_fixed a _ (fun _ => rfl)

/-- Aborting preserves the invariant. -/
theorem stepOK_mthrow (a : ActionCfg) {α : Type} (e : PErr) :
    StepOK a (mthrow e : M α) :=
  stepOK_of_fixed a _ (fun _ => rfl)

/-- Reading the state preserves the invariant. -/
theorem stepOK_getS (a : ActionCfg) : StepOK a getS :=
  stepOK_of_fixed a _ (fun _ => rfl)

/-- A state transform that does not touch the namespace, the events or the
seen-with-non-default set preserves the invariant. -/
theorem stepOK_modify_aux (a : ActionCfg) (f : PState → PState)
    (hns : ∀ st, (f st).ns = st.ns) (hev : ∀ st, (f st).events = st.events)
    (hsd : ∀ st, (f st).seenNonDefault = st.seenNonDefault) :
    StepOK a (modifyS f) := by
  intro st
  refine ⟨?_, ?_, ?_, ?_⟩
  · intro x hx
    show x ∈ (f st).seenNonDefault
    rw [hsd st]
    exact hx
  · show defaultEvents a.id (f st).events = _
    rw [hev st]
  · intro _
    show nsGet (f st).ns a.dest = _
    rw [hns st]
  · intro k
    left
    show nsGet (f st).ns k = _
    rw [hns st]

/-- The invariant composes through bind. -/
theorem stepOK_bind {a : ActionCfg} {α β : Type} {m : M α} {f : α → M β}
    (hm : StepOK a m) (hf : ∀ x, StepOK a (f x)) : StepOK a (m >>= f) := by
  intro st
  have h1 := hm st
  rcases hm2 : m st with ⟨r, st2⟩
  rw [hm2] at h1
  cases r with
  | error e =>
    have heq : (m >>= f) st = (Except.error e, st2) := by
      rw [bindM_run, hm2]
    rw [heq]
    exact h1
  | ok x =>
    have heq : (m >>= f) st = f x st2 := by
      rw [bindM_run, hm2]
    rw [heq]
    have h2 := hf x st2
    refine ⟨?_, ?_, ?_, ?_⟩
    · intro y hy
      exact h2.1 y (h1.1 y hy)
    · exact h2.2.1.trans h1.2.1
    · intro hnot
      have hnot2 : a.id ∉ st2.seenNonDefault := fun hin => hnot (h2.1 _ hin)
      rw [h2.2.2.1 hnot, h1.2.2.1 hnot2]
    · intro k
      rcases h2.2.2.2 k with heq2 | ⟨v, hv, hnd⟩
      · rcases h1.2.2.2 k with heq1 | ⟨v, hv, hnd⟩
        · exact Or.inl (heq2.trans heq1)
        · exact Or.inr ⟨v, heq2.trans hv, hnd⟩
      · exact Or.inr ⟨v, hv, hnd⟩


/-- Setting a namespace key makes it readable. -/
theorem nsGet_nsSet_same (ns : List (String × PyVal)) (k : String) (v : PyVal) :
    nsGet (nsSet ns k v) k = some v := by
  induction ns with
  | nil =>
    simp [nsSet, nsGet]
  | cons p rest ih =>
    rcases p with ⟨k2, v2⟩
    by_cases h : k2 = k
    · simp [nsSet, h, nsGet]
    · simp only [nsSet, h, if_false]
      unfold nsGet
      rw [List.find?_cons_of_neg _ (by simp [h])]
      exact ih

/-- Setting a namespace key leaves other keys unchanged. -/
theorem nsGet_nsSet_ne (ns : List (String × PyVal)) (k k2 : String) (v : PyVal)
    (h : k2 ≠ k) : nsGet (nsSet ns k v) k2 = nsGet ns k2 := by
  induction ns with
  | nil =>
    simp only [nsSet, nsGet]
    rw [List.find?_cons_of_neg _ (by simp; exact fun hc => h hc.symm)]
  | cons p rest ih =>
    rcases p with ⟨k3, v3⟩
    by_cases hp : k3 = k
    · simp only [nsSet, hp, if_true]
      unfold nsGet
      rw [List.find?_cons_of_neg _ (by simp; exact fun hc => h hc.symm)]
      rw [List.find?_cons_of_neg _ (by simp [hp]; exact fun hc => h hc.symm)]
    · simp only [nsSet, hp, if_false]
      by_cases hp2 : k3 = k2
      · unfold nsGet
        rw [List.find?_cons_of_pos _ (by simp [hp2])]
        rw [List.find?_cons_of_pos _ (by simp [hp2])]
      · unfold nsGet
        rw [List.find?_cons_of_neg _ (by simp [hp2])]
        rw [List.find?_cons_of_neg _ (by simp [hp2])]
        exact ih

/-- `_get_value` only appends one conversion event. -/
theorem getValue_state (b : ActionCfg) (isDef : Bool) (s : String) (st : PState) :
    ((getValue b isDef s) st).2 =
      { st with events := st.events ++ [Ev.mk b.id s isDef] } := rfl

/-- An appended event that is not a default conversion of the action leaves
its default-conversion log unchanged. -/
theorem defaultEvents_append_not (aid : Nat) (evs : List Ev) (e : Ev)
    (h : evTag aid e = false) :
    defaultEvents aid (evs ++ [e]) = defaultEvents aid evs := by
  simp [defaultEvents, List.filter_append, h]

/-- A conversion event that is not a default conversion of `a` preserves
the invariant. -/
theorem stepOK_getValue (a b : ActionCfg) (isDef : Bool) (s : String)
    (h : (decide (b.id = a.id) && isDef) = false) : StepOK a (getValue b isDef s) := by
  intro st
  rw [getValue_state]
  refine ⟨fun x hx => hx, ?_, fun _ => rfl, fun k => Or.inl rfl⟩
  exact defaultEvents_append_not a.id st.events (Ev.mk b.id s isDef) h

/-- `_get_value` is events-only. -/
theorem eventsOnly_getValue (b : ActionCfg) (isDef : Bool) (s : String) :
    EventsOnly (getValue b isDef s) := by
  intro st
  rw [getValue_state]
  exact ⟨rfl, rfl, rfl, rfl, rfl⟩

/-- EventsOnly composes through bind. -/
theorem eventsOnly_bind {α β : Type} {m : M α} {f : α → M β}
    (hm : EventsOnly m) (hf : ∀ x, EventsOnly (f x)) : EventsOnly (m >>= f) := by
  intro st
  have h1 := hm st
  rcases hm2 : m st with ⟨r, st2⟩
  rw [hm2] at h1
  cases r with
  | error e =>
    have heq : (m >>= f) st = (Except.error e, st2) := by
      rw [bindM_run, hm2]
    rw [heq]
    exact h1
  | ok x =>
    have heq : (m >>= f) st = f x st2 := by
      rw [bindM_run, hm2]
    rw [heq]
    have h2 := hf x st2
    exact ⟨h2.1.trans h1.1, (h2.2.1).trans h1.2.1, (h2.2.2.1).trans h1.2.2.1,
      (h2.2.2.2.1).trans h1.2.2.2.1, (h2.2.2.2.2).trans h1.2.2.2.2⟩

/-- A state-fixed computation is events-only. -/
theorem eventsOnly_of_fixed {α : Type} (m : M α) (h : ∀ st, (m st).2 = st) :
    EventsOnly m := by
  intro st
  rw [h st]
  exact ⟨rfl, rfl, rfl, rfl, rfl⟩

/-- Pure computations are events-only. -/
theorem eventsOnly_pure {α : Type} (x : α) : EventsOnly (pure x : M α) :=
  eventsOnly_of_fixed _ (fun _ => rfl)

/-- Aborts are events-only. -/
theorem eventsOnly_mthrow {α : Type} (e : PErr) : EventsOnly (mthrow e : M α) :=
  eventsOnly_of_fixed _ (fun _ => rfl)

/-- `_check_values` leaves the state unchanged. -/
theorem checkValuesM_state (b : ActionCfg) (v : PyVal) (st : PState) :
    ((checkValuesM b v) st).2 = st := by
  simp only [checkValuesM]
  cases checkValues b.id b.choices v <;> rfl

/-- `_match_argument` leaves the state unchanged. -/
theorem matchArgument_state (b : ActionCfg) (patt : List RAtom) (st : PState) :
    ((matchArgument b patt) st).2 = st := by
  simp only [matchArgument]
  cases matchGroups [nargsPattern (!b.optionStrings.isEmpty) b.nargs] patt with
  | none => rfl
  | some ks => rfl

/-- The list conversion is events-only. -/
theorem eventsOnly_mapConvert (b : ActionCfg) (flag : Bool) (l : List String) :
    EventsOnly (mapConvert b flag l) := by
  induction l with
  | nil => exact eventsOnly_pure []
  | cons x rest ih =>
    exact eventsOnly_bind (eventsOnly_getValue b flag x)
      (fun v => eventsOnly_bind ih (fun vs => eventsOnly_pure (v :: vs)))

/-- The list conversion preserves the invariant when its events are not
default conversions of `a`. -/
theorem stepOK_mapConvert (a b : ActionCfg) (flag : Bool) (l : List String)
    (h : (decide (b.id = a.id) && flag) = false) : StepOK a (mapConvert b flag l) := by
  induction l with
  | nil => exact stepOK_pure a []
  | cons x rest ih =>
    exact stepOK_bind (stepOK_getValue a b flag x h)
      (fun v => stepOK_bind ih (fun vs => stepOK_pure a (v :: vs)))


/-- Postconditions hold of pure results. -/
theorem okPost_pure {α : Type} {P : α → Prop} (x : α) (h : P x) :
    OkPost (pure x : M α) P := by
  intro st y st2 hr
  rw [pureM_run] at hr
  cases hr
  exact h

/-- Aborts satisfy any postcondition. -/
theorem okPost_mthrow {α : Type} (P : α → Prop) (e : PErr) :
    OkPost (mthrow e : M α) P := by
  intro st y st2 hr
  cases hr

/-- Postconditions compose through bind. -/
theorem okPost_bind {α β : Type} {m : M α} {f : α → M β} {Q : α → Prop}
    {P : β → Prop} (hm : OkPost m Q) (hf : ∀ x, Q x → OkPost (f x) P) :
    OkPost (m >>= f) P := by
  intro st y st2 hr
  rw [bindM_run] at hr
  rcases hm2 : m st with ⟨r, stm⟩
  rw [hm2] at hr
  cases r with
  | error e => cases hr
  | ok x => exact hf x (hm st x stm hm2) stm y st2 hr

/-- A trivially true postcondition. -/
theorem okPost_true {α : Type} (m : M α) : OkPost m (fun _ => True) :=
  fun _ _ _ _ => trivial

/-- The identity converter returns a string; a configured converter's
successful results are constrained by well-formedness not to be raw delayed
wrappers. -/
theorem okPost_getValue (b : ActionCfg) (isDef : Bool) (s : String)
    (hconv : ∀ f, b.conv = some f → ∀ t v, f t = Except.ok v → isDelayedTop v = false) :
    OkPost (getValue b isDef s) (fun v => isDelayedTop v = false) := by
  intro st y st2 hr
  simp only [getValue] at hr
  rcases hc : b.conv with _ | f
  · simp only [hc] at hr
    cases hr
    rfl
  · simp only [hc] at hr
    rcases hf : f s with m | v
    · simp only [hf] at hr
      cases hr
    · simp only [hf] at hr
      cases hr
      exact hconv f hc s y hf


/-- `_check_values` is events-only. -/
theorem eventsOnly_checkValuesM (b : ActionCfg) (v : PyVal) :
    EventsOnly (checkValuesM b v) :=
  eventsOnly_of_fixed _ (checkValuesM_state b v)

/-- `_get_values` is events-only. -/
theorem eventsOnly_getValuesM (b : ActionCfg) (args : List String) :
    EventsOnly (getValuesM b args) := by
  rw [getValuesM]
  split
  · split
    · exact eventsOnly_bind (eventsOnly_getValue _ _ _)
        (fun v1 => eventsOnly_bind (eventsOnly_checkValuesM _ _)
          (fun _ => eventsOnly_pure _))
    · exact eventsOnly_pure _
  · split
    · split
      · exact eventsOnly_bind (eventsOnly_checkValuesM _ _)
          (fun _ => eventsOnly_pure _)
      · exact eventsOnly_pure _
    · split
      · exact eventsOnly_bind (eventsOnly_getValue _ _ _)
          (fun v1 => eventsOnly_bind (eventsOnly_checkValuesM _ _)
            (fun _ => eventsOnly_pure _))
      · split
        · exact eventsOnly_bind (eventsOnly_mapConvert _ _ _)
            (fun vs => eventsOnly_pure _)
        · split
          · exact eventsOnly_bind (eventsOnly_mapConvert _ _ _)
              (fun vs => match vs with
                | [] => eventsOnly_mthrow _
                | v0 :: rest => eventsOnly_bind (eventsOnly_checkValuesM _ _)
                    (fun _ => eventsOnly_pure _))
          · exact eventsOnly_bind (eventsOnly_mapConvert _ _ _)
              (fun vs => eventsOnly_bind (eventsOnly_checkValuesM _ _)
                (fun _ => eventsOnly_pure _))


/-- `_check_values` preserves the invariant. -/
theorem stepOK_checkValuesM (a b : ActionCfg) (v : PyVal) :
    StepOK a (checkValuesM b v) :=
  stepOK_of_fixed a _ (checkValuesM_state b v)

/-- `_match_argument` preserves the invariant. -/
theorem stepOK_matchArgument (a b : ActionCfg) (patt : List RAtom) :
    StepOK a (matchArgument b patt) :=
  stepOK_of_fixed a _ (matchArgument_state b patt)

/-- `_get_values` preserves the invariant for an action that either has
option strings (its conversions are then never default-flagged) or is a
different action than `a`. -/
theorem stepOK_getValuesM (a b : ActionCfg) (args : List String)
    (hcase : b.optionStrings ≠ [] ∨ b.id ≠ a.id) : StepOK a (getValuesM b args) := by
  rw [getValuesM]
  split
  · split
    next s ud heq =>
      refine stepOK_bind (stepOK_getValue a b ud s ?_) (fun v1 =>
        stepOK_bind (stepOK_checkValuesM a b v1) (fun _ => stepOK_pure a _))
      by_cases hbo : b.optionStrings.isEmpty
      · rw [if_pos hbo] at heq
        have hud : ud = true := ((Prod.mk.injEq _ _ _ _).mp heq).2.symm
        have hid : b.id ≠ a.id := by
          rcases hcase with hne | hid
          · exact absurd (List.isEmpty_iff.mp hbo) hne
          · exact hid
        rw [hud]
        simp [hid]
      · rw [if_neg hbo] at heq
        have hud : ud = false := ((Prod.mk.injEq _ _ _ _).mp heq).2.symm
        rw [hud]
        simp
    next => exact stepOK_pure a _
  · split
    · split
      · exact stepOK_bind (stepOK_checkValuesM a b _) (fun _ => stepOK_pure a _)
      · exact stepOK_pure a _
    · split
      · exact stepOK_bind (stepOK_getValue a b false _ (by simp)) (fun v1 =>
          stepOK_bind (stepOK_checkValuesM a b v1) (fun _ => stepOK_pure a _))
      · split
        · exact stepOK_bind (stepOK_mapConvert a b false _ (by simp))
            (fun vs => stepOK_pure a _)
        · split
          · exact stepOK_bind (stepOK_mapConvert a b false _ (by simp))
              (fun vs => match vs with
                | [] => stepOK_mthrow a _
                | v0 :: rest => stepOK_bind (stepOK_checkValuesM a b v0)
                    (fun _ => stepOK_pure a _))
          · exact stepOK_bind (stepOK_mapConvert a b false _ (by simp))
              (fun vs => stepOK_bind (stepOK_checkValuesM a b _)
                (fun _ => stepOK_pure a _))

/-- For an action with option strings, `_get_values` never reports a
default value (`using_default` stays false). -/
theorem okPost_getValuesM_ud (b : ActionCfg) (args : List String)
    (hbo : b.optionStrings ≠ []) :
    OkPost (getValuesM b args) (fun r => r.2 = false) := by
  have hboe : ¬ b.optionStrings.isEmpty = true := fun h => hbo (List.isEmpty_iff.mp h)
  rw [getValuesM]
  split
  · split
    next s ud heq =>
      have hud : ud = false := ((Prod.mk.injEq _ _ _ _).mp heq).2.symm
      exact okPost_bind (okPost_true _) (fun v1 _ =>
        okPost_bind (okPost_true _) (fun _ _ => okPost_pure _ hud))
    next v0 ud hnm heq =>
      have hud : ud = false := ((Prod.mk.injEq _ _ _ _).mp heq).2.symm
      exact okPost_pure _ hud
  · split
    next hguard =>
      exact absurd (List.isEmpty_iff.mp hguard.2.2) hbo
    next =>
      split
      · exact okPost_bind (okPost_true _) (fun v1 _ =>
          okPost_bind (okPost_true _) (fun _ _ => okPost_pure _ rfl))
      · split
        · exact okPost_bind (okPost_true _) (fun vs _ => okPost_pure _ rfl)
        · split
          · exact okPost_bind (okPost_true _)
              (fun vs _ => match vs with
                | [] => okPost_mthrow _ _
                | v0 :: rest => okPost_bind (okPost_true _)
                    (fun _ _ => okPost_pure _ rfl))
          · exact okPost_bind (okPost_true _) (fun vs _ =>
              okPost_bind (okPost_true _) (fun _ _ => okPost_pure _ rfl))

/-- Under well-formedness, `_get_values` never returns a raw delayed
wrapper as its value. -/
theorem okPost_getValuesM_nondelayed (b : ActionCfg) (args : List String)
    (hdef : isDelayedTop b.defaultV = false) (hconst : isDelayedTop b.constV = false)
    (hconv : ∀ f, b.conv = some f → ∀ t v, f t = Except.ok v → isDelayedTop v = false) :
    OkPost (getValuesM b args) (fun r => isDelayedTop r.1 = false) := by
  rw [getValuesM]
  split
  · split
    next s ud heq =>
      exact okPost_bind (okPost_getValue b ud s hconv) (fun v1 hv1 =>
        okPost_bind (okPost_true _) (fun _ _ => okPost_pure _ hv1))
    next v0 ud hnm heq =>
      have hv0 : isDelayedTop v0 = false := by
        by_cases hbo : b.optionStrings.isEmpty
        · rw [if_pos hbo] at heq
          have := ((Prod.mk.injEq _ _ _ _).mp heq).1
          rw [← this]
          exact hdef
        · rw [if_neg hbo] at heq
          have := ((Prod.mk.injEq _ _ _ _).mp heq).1
          rw [← this]
          exact hconst
      exact okPost_pure _ hv0
  · split
    · split
      next s heq =>
        exact okPost_bind (okPost_true _) (fun _ _ => okPost_pure _ rfl)
      next hg x hnm =>
        refine okPost_pure _ ?_
        by_cases hd : b.defaultV ≠ PyVal.pynone
        · rw [if_pos hd]
          exact hdef
        · rw [if_neg hd]
          rfl
    · split
      · exact okPost_bind (okPost_getValue b false _ hconv) (fun v1 hv1 =>
          okPost_bind (okPost_true _) (fun _ _ => okPost_pure _ hv1))
      · split
        · exact okPost_bind (okPost_true _) (fun vs _ => okPost_pure _ rfl)
        · split
          · exact okPost_bind (okPost_true _)
              (fun vs _ => match vs with
                | [] => okPost_mthrow _ _
                | v0 :: rest => okPost_bind (okPost_true _)
                    (fun _ _ => okPost_pure _ rfl))
          · exact okPost_bind (okPost_true _) (fun vs _ =>
              okPost_bind (okPost_true _) (fun _ _ => okPost_pure _ rfl))


/-- The invariant composes through bind when the head's postcondition is
needed to establish the invariant of the continuation. -/
theorem stepOK_bind_post {a : ActionCfg} {α β : Type} {m : M α} {f : α → M β}
    {Q : α → Prop} (hm : StepOK a m) (hq : OkPost m Q)
    (hf : ∀ x, Q x → StepOK a (f x)) : StepOK a (m >>= f) := by
  intro st
  have h1 := hm st
  rcases hm2 : m st with ⟨r, st2⟩
  rw [hm2] at h1
  cases r with
  | error e =>
    have heq : (m >>= f) st = (Except.error e, st2) := by
      rw [bindM_run, hm2]
    rw [heq]
    exact h1
  | ok x =>
    have heq : (m >>= f) st = f x st2 := by
      rw [bindM_run, hm2]
    rw [heq]
    have h2 := hf x (hq st x st2 hm2) st2
    refine ⟨?_, ?_, ?_, ?_⟩
    · intro y hy
      exact h2.1 y (h1.1 y hy)
    · exact h2.2.1.trans h1.2.1
    · intro hnot
      have hnot2 : a.id ∉ st2.seenNonDefault := fun hin => hnot (h2.1 _ hin)
      rw [h2.2.2.1 hnot, h1.2.2.1 hnot2]
    · intro k
      rcases h2.2.2.2 k with heq2 | ⟨v, hv, hnd⟩
      · rcases h1.2.2.2 k with heq1 | ⟨v, hv, hnd⟩
        · exact Or.inl (heq2.trans heq1)
        · exact Or.inr ⟨v, heq2.trans hv, hnd⟩
      · exact Or.inr ⟨v, hv, hnd⟩

/-- `take_action` preserves the invariant for the watched action `a`
itself (when `a` has option strings) and for any other action with a
distinct id and dest, provided the taken action is well-formed. -/
theorem stepOK_takeAction (a b : ActionCfg) (args : List String)
    (hdef : isDelayedTop b.defaultV = false) (hconst : isDelayedTop b.constV = false)
    (hconv : ∀ f, b.conv = some f → ∀ t v, f t = Except.ok v → isDelayedTop v = false)
    (hcase : (b.id = a.id ∧ b.optionStrings ≠ []) ∨ (b.id ≠ a.id ∧ b.dest ≠ a.dest)) :
    StepOK a (takeAction b args) := by
  have hcase2 : b.optionStrings ≠ [] ∨ b.id ≠ a.id := by
    rcases hcase with ⟨_, h⟩ | ⟨h, _⟩
    · exact Or.inl h
    · exact Or.inr h
  have hq : OkPost (getValuesM b args)
      (fun vud => isDelayedTop vud.1 = false ∧
        (b.optionStrings ≠ [] → vud.2 = false)) := by
    intro st x st2 hr
    refine ⟨okPost_getValuesM_nondelayed b args hdef hconst hconv st x st2 hr, ?_⟩
    intro hbo
    exact okPost_getValuesM_ud b args hbo st x st2 hr
  rw [takeAction]
  refine stepOK_bind
    (stepOK_modify_aux a _ (fun _ => rfl) (fun _ => rfl) (fun _ => rfl))
    (fun _ => ?_)
  refine stepOK_bind_post (stepOK_getValuesM a b args hcase2) hq (fun vud hvud => ?_)
  obtain ⟨hnd, hudimp⟩ := hvud
  intro st
  by_cases hud : vud.2 = false
  · rw [if_pos hud]
    by_cases hs : vud.1 = PyVal.suppressV
    · rw [if_pos hs]
      exact ⟨fun x hx => List.mem_append_left _ hx, rfl, fun _ => rfl,
        fun k => Or.inl rfl⟩
    · rw [if_neg hs]
      refine ⟨fun x hx => List.mem_append_left _ hx, rfl, ?_, ?_⟩
      · intro hnot
        rcases hcase with ⟨hid, hbo⟩ | ⟨hid, hdest⟩
        · exact absurd (List.mem_append_right _ (by rw [hid]; exact List.mem_singleton.mpr rfl)) hnot
        · exact nsGet_nsSet_ne st.ns b.dest a.dest vud.1 (fun h => hdest h.symm)
      · intro k
        by_cases hk : k = b.dest
        · refine Or.inr ⟨vud.1, ?_, hnd⟩
          rw [hk]
          exact nsGet_nsSet_same st.ns b.dest vud.1
        · exact Or.inl (nsGet_nsSet_ne st.ns b.dest k vud.1 hk)
  · rw [if_neg hud]
    by_cases hs : vud.1 = PyVal.suppressV
    · rw [if_pos hs]
      exact ⟨fun x hx => hx, rfl, fun _ => rfl, fun k => Or.inl rfl⟩
    · rw [if_neg hs]
      refine ⟨fun x hx => hx, rfl, ?_, ?_⟩
      · intro _
        rcases hcase with ⟨hid, hbo⟩ | ⟨hid, hdest⟩
        · exact absurd (hudimp hbo) hud
        · exact nsGet_nsSet_ne st.ns b.dest a.dest vud.1 (fun h => hdest h.symm)
      · intro k
        by_cases hk : k = b.dest
        · refine Or.inr ⟨vud.1, ?_, hnd⟩
          rw [hk]
          exact nsGet_nsSet_same st.ns b.dest vud.1
        · exact Or.inl (nsGet_nsSet_ne st.ns b.dest k vud.1 hk)


/-- `find?` by id returns a member carrying that id. -/
theorem findAction_sound (cfg : ParserCfg) (t : Nat) (b : ActionCfg)
    (h : findAction cfg t = some b) : b ∈ cfg.actions ∧ b.id = t := by
  rw [findAction] at h
  exact ⟨List.mem_of_find?_eq_some h, by simpa using List.find?_some h⟩

/-- With distinct ids, looking an action up by its own id returns it. -/
theorem findAction_of_nodup (cfg : ParserCfg) (a : ActionCfg)
    (hnd : (cfg.actions.map (fun x => x.id)).Nodup) (ha : a ∈ cfg.actions) :
    findAction cfg a.id = some a := by
  rw [findAction]
  suffices h : ∀ l : List ActionCfg, (l.map (fun x => x.id)).Nodup → a ∈ l →
      l.find? (fun b => b.id = a.id) = some a from h _ hnd ha
  intro l
  induction l with
  | nil =>
    intro _ h
    cases h
  | cons b rest ih =>
    intro hnd2 hmem
    rw [List.map_cons] at hnd2
    by_cases hb : b.id = a.id
    · rw [List.find?_cons_of_pos _ (by simp [hb])]
      rcases List.mem_cons.mp hmem with rfl | hmem2
      · rfl
      · exfalso
        have hin : a.id ∈ rest.map (fun x => x.id) := List.mem_map.mpr ⟨a, hmem2, rfl⟩
        have hni := (List.nodup_cons.mp hnd2).1
        rw [hb] at hni
        exact hni hin
    · rw [List.find?_cons_of_neg _ (by simp [hb])]
      rcases List.mem_cons.mp hmem with rfl | hmem2
      · exact absurd rfl hb
      · exact ih (List.nodup_cons.mp hnd2).2 hmem2

/-- The action-default seeding fold leaves untouched every slot that is no
listed action's dest. -/
theorem nsGet_seedActions_not_mem :
    ∀ (acts : List ActionCfg) (ns : List (String × PyVal)) (k : String),
    (∀ b ∈ acts, b.dest ≠ k) →
    nsGet (acts.foldl seedActionDefault ns) k = nsGet ns k := by
  intro acts
  induction acts with
  | nil =>
    intro ns k _
    rfl
  | cons b rest ih =>
    intro ns k hk
    rw [List.foldl_cons]
    rw [ih _ k (fun c hc => hk c (List.mem_cons_of_mem b hc))]
    rw [seedActionDefault]
    split
    · exact nsGet_nsSet_ne ns b.dest k (defaultSeed b)
        (fun h => hk b (List.mem_cons_self b rest) h.symm)
    · rfl

/-- With distinct dests, the seeding fold stores the delayed wrapper of a
string default at the action's own dest. -/
theorem nsGet_seedActions_mem :
    ∀ (acts : List ActionCfg) (ns : List (String × PyVal)) (a : ActionCfg) (d : String),
    a ∈ acts → (acts.map (fun x => x.dest)).Nodup →
    nsGet ns a.dest = none → a.dest ≠ suppressStr → a.defaultV = PyVal.str d →
    nsGet (acts.foldl seedActionDefault ns) a.dest = some (PyVal.delayed a.id d) := by
  intro acts
  induction acts with
  | nil =>
    intro ns a d h
    cases h
  | cons b rest ih =>
    intro ns a d hmem hnd hnone hsup hdef
    rw [List.map_cons] at hnd
    rw [List.foldl_cons]
    rcases List.mem_cons.mp hmem with rfl | hmem2
    · have hstep : seedActionDefault ns a = nsSet ns a.dest (defaultSeed a) := by
        rw [seedActionDefault, if_pos]
        refine ⟨hsup, ?_, ?_⟩
        · rw [hnone]
          rfl
        · rw [hdef]
          exact fun h => PyVal.noConfusion h
      rw [hstep]
      have hrest : ∀ c ∈ rest, c.dest ≠ a.dest := by
        intro c hc hcd
        exact (List.nodup_cons.mp hnd).1 (List.mem_map.mpr ⟨c, hc, hcd⟩)
      rw [nsGet_seedActions_not_mem rest _ a.dest hrest]
      have hseed : defaultSeed a = PyVal.delayed a.id d := by
        simp only [defaultSeed, hdef]
      rw [hseed]
      exact nsGet_nsSet_same ns a.dest _
    · have hbd : b.dest ≠ a.dest := by
        intro h
        exact (List.nodup_cons.mp hnd).1 (h ▸ List.mem_map.mpr ⟨a, hmem2, rfl⟩)
      have hnone2 : nsGet (seedActionDefault ns b) a.dest = none := by
        rw [seedActionDefault]
        split
        · rw [nsGet_nsSet_ne ns b.dest a.dest _ (fun h => hbd h.symm)]
          exact hnone
        · exact hnone
      exact ih _ a d hmem2 (List.nodup_cons.mp hnd).2 hnone2 hsup hdef

/-- The parser-level defaults fold never overwrites an occupied slot. -/
theorem nsGet_seedParser_some :
    ∀ (kvs : List (String × PyVal)) (ns : List (String × PyVal)) (k : String) (v : PyVal),
    nsGet ns k = some v →
    nsGet (kvs.foldl seedParserDefault ns) k = some v := by
  intro kvs
  induction kvs with
  | nil =>
    intro ns k v h
    exact h
  | cons kv rest ih =>
    intro ns k v h
    rw [List.foldl_cons]
    refine ih _ k v ?_
    rw [seedParserDefault]
    split
    next hcond =>
      by_cases hk : kv.1 = k
      · rw [hk, h] at hcond
        exact Bool.noConfusion hcond
      · rw [nsGet_nsSet_ne ns kv.1 k kv.2 (fun hh => hk hh.symm)]
        exact h
    next =>
      exact h

/-- Delayed wrappers produced by the action-default seeding fold trace to
an action with that dest, id and string default. -/
theorem seedActions_origin :
    ∀ (acts : List ActionCfg) (ns : List (String × PyVal)) (k : String) (t : Nat) (s : String),
    (∀ b ∈ acts, isDelayedTop b.defaultV = false) →
    nsGet (acts.foldl seedActionDefault ns) k = some (PyVal.delayed t s) →
    nsGet ns k = some (PyVal.delayed t s) ∨
      ∃ b, b ∈ acts ∧ b.dest = k ∧ b.id = t ∧ b.defaultV = PyVal.str s := by
  intro acts
  induction acts with
  | nil =>
    intro ns k t s _ h
    exact Or.inl h
  | cons b rest ih =>
    intro ns k t s hndl h
    rw [List.foldl_cons] at h
    rcases ih _ k t s (fun c hc => hndl c (List.mem_cons_of_mem b hc)) h with
      h2 | ⟨c, hc, rest2⟩
    · rw [seedActionDefault] at h2
      by_cases hcond : (b.dest ≠ suppressStr ∧ (nsGet ns b.dest).isNone ∧
          b.defaultV ≠ PyVal.suppressV)
      · rw [if_pos hcond] at h2
        by_cases hk : b.dest = k
        · rw [hk] at h2
          rw [nsGet_nsSet_same] at h2
          have hseed : defaultSeed b = PyVal.delayed t s := Option.some.inj h2
          have hbits : b.id = t ∧ b.defaultV = PyVal.str s := by
            cases hbd : b.defaultV with
            | str s0 =>
              simp only [defaultSeed, hbd] at hseed
              cases hseed
              exact ⟨rfl, rfl⟩
            | delayed t2 s2 =>
              have hx := hndl b (List.mem_cons_self b rest)
              rw [hbd] at hx
              exact Bool.noConfusion hx
            | pynone =>
              simp only [defaultSeed, hbd] at hseed
              exact PyVal.noConfusion hseed
            | pyint n =>
              simp only [defaultSeed, hbd] at hseed
              exact PyVal.noConfusion hseed
            | plist xs =>
              simp only [defaultSeed, hbd] at hseed
              exact PyVal.noConfusion hseed
            | suppressV =>
              simp only [defaultSeed, hbd] at hseed
              exact PyVal.noConfusion hseed
          exact Or.inr ⟨b, List.mem_cons_self b rest, hk, hbits.1, hbits.2⟩
        · rw [nsGet_nsSet_ne ns b.dest k _ (fun hh => hk hh.symm)] at h2
          exact Or.inl h2
      · rw [if_neg hcond] at h2
        exact Or.inl h2
    · exact Or.inr ⟨c, List.mem_cons_of_mem b hc, rest2⟩

/-- The parser-level defaults fold introduces no delayed wrapper when its
values carry none. -/
theorem seedParser_origin :
    ∀ (kvs : List (String × PyVal)) (ns : List (String × PyVal)) (k : String)
      (t : Nat) (s : String),
    (∀ kv ∈ kvs, isDelayedTop kv.2 = false) →
    nsGet (kvs.foldl seedParserDefault ns) k = some (PyVal.delayed t s) →
    nsGet ns k = some (PyVal.delayed t s) := by
  intro kvs
  induction kvs with
  | nil =>
    intro ns k t s _ h
    exact h
  | cons kv rest ih =>
    intro ns k t s hndl h
    rw [List.foldl_cons] at h
    have h2 := ih _ k t s (fun c hc => hndl c (List.mem_cons_of_mem kv hc)) h
    rw [seedParserDefault] at h2
    by_cases hcond : (nsGet ns kv.1).isNone
    · rw [if_pos hcond] at h2
      by_cases hk : kv.1 = k
      · rw [hk] at h2
        rw [nsGet_nsSet_same] at h2
        have hx := hndl kv (List.mem_cons_self kv rest)
        rw [Option.some.inj h2] at hx
        exact Bool.noConfusion hx
      · rw [nsGet_nsSet_ne ns kv.1 k kv.2 (fun hh => hk hh.symm)] at h2
        exact h2
    · rw [if_neg hcond] at h2
      exact h2

/-- The default pre-pass stores the delayed wrapper of a string default at
the action's dest. -/
theorem nsGet_addDefaults_delayed (cfg : ParserCfg) (a : ActionCfg) (d : String)
    (ha : a ∈ cfg.actions) (hnd : (cfg.actions.map (fun x => x.dest)).Nodup)
    (hdef : a.defaultV = PyVal.str d) (hsup : a.dest ≠ suppressStr) :
    nsGet (addDefaults cfg) a.dest = some (PyVal.delayed a.id d) := by
  rw [addDefaults]
  exact nsGet_seedParser_some _ _ _ _
    (nsGet_seedActions_mem cfg.actions [] a d ha hnd rfl hsup hdef)

/-- Every delayed wrapper in the seeded namespace traces to the action
whose dest holds it. -/
theorem addDefaults_origin (cfg : ParserCfg)
    (hd1 : ∀ b ∈ cfg.actions, isDelayedTop b.defaultV = false)
    (hd2 : ∀ kv ∈ cfg.parserDefaults, isDelayedTop kv.2 = false) :
    DelayedOrigin cfg (addDefaults cfg) := by
  intro k t s h
  rw [addDefaults] at h
  have h2 := seedParser_origin _ _ _ _ _ hd2 h
  rcases seedActions_origin cfg.actions [] k t s hd1 h2 with h3 | ⟨b, hb, h4⟩
  · cases h3
  · exact ⟨b, hb, h4⟩


/-- Taking a list of member actions preserves the invariant. -/
theorem stepOK_takeAll (cfg : ParserCfg) (a : ActionCfg) (hok : CfgOK cfg a) :
    ∀ ts : List (ActionCfg × List String × String),
    (∀ p ∈ ts, p.1 ∈ cfg.actions) → StepOK a (takeAll ts) := by
  intro ts
  induction ts with
  | nil =>
    intro _
    exact stepOK_pure a _
  | cons p rest ih =>
    intro hmem
    rcases p with ⟨b, as2, os⟩
    show StepOK a (takeAction b as2 >>= fun _ => takeAll rest)
    refine stepOK_bind ?_ (fun _ => ih (fun q hq => hmem q (List.mem_cons_of_mem _ hq)))
    have hb := hmem (b, as2, os) (List.mem_cons_self _ _)
    rcases hok with ⟨h1, h2, h3⟩
    exact stepOK_takeAction a b as2 (h2 b hb).1 (h2 b hb).2 (h3 b hb) (h1 b hb)

/-- The explicit-argument and cluster-splitting loop only touches the
extras (and the event log through `_match_argument`, which is pure), so it
preserves the invariant. -/
theorem stepOK_optLoop (cfg : ParserCfg) (a : ActionCfg) (args : List String)
    (patt : List RAtom) (si penult : Nat) :
    ∀ (fuel : Nat) (aidO : Option Nat) (os : String) (ea : Option String)
      (acc : List (ActionCfg × List String × String)),
    StepOK a (optLoop cfg args patt si penult fuel aidO os ea acc) := by
  intro fuel
  induction fuel with
  | zero =>
    intro aidO os ea acc
    exact stepOK_mthrow a _
  | succ n ih =>
    intro aidO os ea acc
    cases aidO with
    | none =>
      exact stepOK_bind
        (stepOK_modify_aux a _ (fun _ => rfl) (fun _ => rfl) (fun _ => rfl))
        (fun _ => stepOK_pure a _)
    | some aid =>
      rw [optLoop]
      split
      · exact stepOK_mthrow a _
      · split
        · refine stepOK_bind (stepOK_matchArgument a _ _) (fun argCount => ?_)
          split
          · split
            · exact stepOK_mthrow a _
            · split
              · exact ih _ _ _ _
              · exact stepOK_mthrow a _
          · split
            · exact stepOK_pure a _
            · exact stepOK_mthrow a _
        · refine stepOK_bind (stepOK_matchArgument a _ _) (fun argCount => ?_)
          refine stepOK_bind (stepOK_getS a) (fun st => ?_)
          exact stepOK_pure a _

/-- Every action tuple the loop accumulates refers to a registered
action. -/
theorem okPost_optLoop (cfg : ParserCfg) (args : List String)
    (patt : List RAtom) (si penult : Nat) :
    ∀ (fuel : Nat) (aidO : Option Nat) (os : String) (ea : Option String)
      (acc : List (ActionCfg × List String × String)),
    (∀ p ∈ acc, p.1 ∈ cfg.actions) →
    OkPost (optLoop cfg args patt si penult fuel aidO os ea acc)
      (fun r => ∀ p ∈ r.1.getD [], p.1 ∈ cfg.actions) := by
  intro fuel
  induction fuel with
  | zero =>
    intro aidO os ea acc _
    exact okPost_mthrow _ _
  | succ n ih =>
    intro aidO os ea acc hacc
    cases aidO with
    | none =>
      refine okPost_bind (okPost_true _) (fun _ _ => okPost_pure _ ?_)
      intro p hp
      cases hp
    | some aid =>
      rw [optLoop]
      split
      · exact okPost_mthrow _ _
      next a2 heq =>
        have ha2 := (findAction_sound cfg aid a2 heq).1
        split
        · refine okPost_bind (okPost_true _) (fun argCount _ => ?_)
          split
          · split
            · exact okPost_mthrow _ _
            · split
              · refine ih _ _ _ _ ?_
                intro p hp
                rcases List.mem_append.mp hp with hp1 | hp2
                · exact hacc p hp1
                · rw [List.mem_singleton.mp hp2]
                  exact ha2
              · exact okPost_mthrow _ _
          · split
            · refine okPost_pure _ ?_
              intro p hp
              rcases List.mem_append.mp hp with hp1 | hp2
              · exact hacc p hp1
              · rw [List.mem_singleton.mp hp2]
                exact ha2
            · exact okPost_mthrow _ _
        · refine okPost_bind (okPost_true _) (fun argCount _ => ?_)
          refine okPost_bind (okPost_true _) (fun st _ => ?_)
          refine okPost_pure _ ?_
          intro p hp
          rcases List.mem_append.mp hp with hp1 | hp2
          · exact hacc p hp1
          · rw [List.mem_singleton.mp hp2]
            exact ha2

/-- `consume_optional` preserves the invariant. -/
theorem stepOK_consumeOptional (cfg : ParserCfg) (a : ActionCfg) (hok : CfgOK cfg a)
    (args : List String) (patt : List RAtom) (optIdx : List (Nat × OptTuple))
    (si : Nat) (noAction : Bool) (penult : Nat) :
    StepOK a (consumeOptional cfg args patt optIdx si noAction penult) := by
  rw [consumeOptional]
  split
  · exact stepOK_mthrow a _
  next tup heq =>
    refine stepOK_bind_post (stepOK_optLoop cfg a args patt si penult _ _ _ _ _)
      (okPost_optLoop cfg args patt si penult _ _ _ _ []
        (fun p hp => absurd hp (List.not_mem_nil p)))
      (fun r hr => ?_)
    rcases r with ⟨ro, stop⟩
    cases ro with
    | none => exact stepOK_pure a _
    | some ts =>
      show StepOK a (if noAction = true then pure stop
        else takeAll ts >>= fun _ => pure stop)
      by_cases hna : noAction = true
      · rw [if_pos hna]
        exact stepOK_pure a _
      · rw [if_neg hna]
        exact stepOK_bind (stepOK_takeAll cfg a hok ts (fun p hp => hr p hp))
          (fun _ => stepOK_pure a _)


/-- The per-positional take loop preserves the invariant when every queued
action is registered. -/
theorem stepOK_posLoop (cfg : ParserCfg) (a : ActionCfg) (hok : CfgOK cfg a)
    (args : List String) (patt : List RAtom) (noAction : Bool) :
    ∀ (l : List (ActionCfg × Nat)) (idx : Nat),
    (∀ p ∈ l, p.1 ∈ cfg.actions) →
    StepOK a (posLoop cfg args patt noAction l idx) := by
  intro l
  induction l with
  | nil =>
    intro idx _
    exact stepOK_pure a _
  | cons p rest ih =>
    intro idx hmem
    rcases p with ⟨b, cnt⟩
    have hb := hmem (b, cnt) (List.mem_cons_self _ _)
    have hrest := fun q hq => hmem q (List.mem_cons_of_mem _ hq)
    rw [posLoop]
    split
    · exact ih _ hrest
    · refine stepOK_bind ?_ (fun _ => ih _ hrest)
      rcases hok with ⟨h1, h2, h3⟩
      exact stepOK_takeAction a b _ (h2 b hb).1 (h2 b hb).2 (h3 b hb) (h1 b hb)

/-- `consume_positionals` preserves the invariant. -/
theorem stepOK_consumePositionals (cfg : ParserCfg) (a : ActionCfg)
    (hok : CfgOK cfg a) (args : List String) (patt : List RAtom)
    (si : Nat) (noAction : Bool) :
    StepOK a (consumePositionals cfg args patt si noAction) := by
  rw [consumePositionals]
  refine stepOK_bind (stepOK_getS a) (fun st => ?_)
  refine stepOK_bind (stepOK_posLoop cfg a hok args patt noAction _ _ ?_)
    (fun r => stepOK_bind
      (stepOK_modify_aux a _ (fun _ => rfl) (fun _ => rfl) (fun _ => rfl))
      (fun _ => stepOK_pure a _))
  intro p hp
  rcases p with ⟨b, c⟩
  have h1 := (List.of_mem_zip hp).1
  rcases List.mem_filterMap.mp h1 with ⟨x, _, hfx⟩
  exact (findAction_sound cfg x b hfx).1

/-- The alternating consume loop preserves the invariant. -/
theorem stepOK_loopGo (cfg : ParserCfg) (a : ActionCfg) (hok : CfgOK cfg a)
    (args : List String) (patt : List RAtom) (optIdx : List (Nat × OptTuple))
    (noAction : Bool) (penult : Nat) :
    ∀ (fuel si : Nat),
    StepOK a (loopGo cfg args patt optIdx noAction penult fuel si) := by
  intro fuel
  induction fuel with
  | zero =>
    intro si
    exact stepOK_mthrow a _
  | succ n ih =>
    intro si
    rw [loopGo]
    split
    · exact stepOK_pure a _
    · split
      · split
        · exact stepOK_mthrow a _
        · split
          · refine stepOK_bind
              (stepOK_consumePositionals cfg a hok args patt _ noAction)
              (fun pe => ?_)
            split
            · exact ih _
            · refine stepOK_bind ?_ (fun s1 => stepOK_bind
                (stepOK_consumeOptional cfg a hok args patt optIdx _ noAction penult)
                (fun s2 => ih _))
              split
              · exact stepOK_bind
                  (stepOK_modify_aux a _ (fun _ => rfl) (fun _ => rfl) (fun _ => rfl))
                  (fun _ => stepOK_pure a _)
              · exact stepOK_pure a _
          · refine stepOK_bind ?_ (fun s1 => stepOK_bind
              (stepOK_consumeOptional cfg a hok args patt optIdx _ noAction penult)
              (fun s2 => ih _))
            split
            · exact stepOK_bind
                (stepOK_modify_aux a _ (fun _ => rfl) (fun _ => rfl) (fun _ => rfl))
                (fun _ => stepOK_pure a _)
            · exact stepOK_pure a _
      · exact stepOK_pure a _

/-- `consume_loop` preserves the invariant. -/
theorem stepOK_consumeLoop (cfg : ParserCfg) (a : ActionCfg) (hok : CfgOK cfg a)
    (args : List String) (patt : List RAtom) (optIdx : List (Nat × OptTuple))
    (noAction : Bool) (penult : Nat) :
    StepOK a (consumeLoop cfg args patt optIdx noAction penult) := by
  rw [consumeLoop]
  exact stepOK_bind (stepOK_loopGo cfg a hok args patt optIdx noAction penult _ _)
    (fun sF => stepOK_bind (stepOK_consumePositionals cfg a hok args patt _ noAction)
      (fun stop => stepOK_bind
        (stepOK_modify_aux a _ (fun _ => rfl) (fun _ => rfl) (fun _ => rfl))
        (fun _ => stepOK_pure a _)))

/-- Resetting the extras and the positional queue preserves the
invariant. -/
theorem stepOK_resetLoopState (cfg : ParserCfg) (a : ActionCfg) :
    StepOK a (resetLoopState cfg) := by
  rw [resetLoopState]
  exact stepOK_modify_aux a _ (fun _ => rfl) (fun _ => rfl) (fun _ => rfl)

/-- The dry-run loop preserves the invariant. -/
theorem stepOK_dryGo (cfg : ParserCfg) (a : ActionCfg) (hok : CfgOK cfg a)
    (args : List String) (patt : List RAtom) (optIdx : List (Nat × OptTuple)) :
    ∀ (count ii : Nat), StepOK a (dryGo cfg args patt optIdx count ii) := by
  intro count
  induction count with
  | zero =>
    intro ii
    exact stepOK_pure a _
  | succ n ih =>
    intro ii
    rw [dryGo]
    refine stepOK_bind (stepOK_resetLoopState cfg a) (fun _ => ?_)
    refine stepOK_bind (stepOK_consumeLoop cfg a hok args patt optIdx true ii)
      (fun _ => ?_)
    refine stepOK_bind (stepOK_getS a) (fun st => ?_)
    split
    · exact stepOK_pure a _
    · split
      · exact stepOK_pure a _
      · exact ih _

/-- The cross tests never mutate the state, they only abort. -/
theorem stepOK_runCrossTests (a : ActionCfg) :
    ∀ (gs : List NGroup) (seen : List Nat), StepOK a (runCrossTests gs seen) := by
  intro gs
  induction gs with
  | nil =>
    intro seen
    exact stepOK_pure a _
  | cons g rest ih =>
    intro seen
    rw [runCrossTests]
    split
    · exact stepOK_mthrow a _
    · exact ih seen

/-- The whole matching phase of `_parse_known_args` preserves the
invariant for a watched optional action. -/
theorem stepOK_parseKnownArgsInner (cfg : ParserCfg) (a : ActionCfg)
    (hok : CfgOK cfg a) (args : List String) :
    StepOK a (parseKnownArgsInner cfg args) := by
  rw [parseKnownArgsInner]
  split
  · exact stepOK_mthrow a _
  · refine stepOK_bind ?_ (fun ii => ?_)
    · split
      · exact stepOK_dryGo cfg a hok args _ _ _ _
      · exact stepOK_pure a _
    · refine stepOK_bind (stepOK_resetLoopState cfg a) (fun _ => ?_)
      refine stepOK_bind (stepOK_consumeLoop cfg a hok args _ _ false _) (fun _ => ?_)
      refine stepOK_bind (stepOK_getS a) (fun st => ?_)
      refine stepOK_bind ?_ (fun _ => ?_)
      · split
        · exact stepOK_pure a _
        · exact stepOK_mthrow a _
      · refine stepOK_bind (stepOK_runCrossTests a _ _) (fun _ => ?_)
        refine stepOK_bind (stepOK_getS a) (fun st2 => ?_)
        exact stepOK_pure a _


/-- Appending a matching event extends the default-conversion log. -/
theorem defaultEvents_append_tag (aid : Nat) (evs : List Ev) (e : Ev)
    (h : evTag aid e = true) :
    defaultEvents aid (evs ++ [e]) = defaultEvents aid evs ++ [e] := by
  simp [defaultEvents, List.filter_append, h]

/-- An empty slot skips the delayed-default step. -/
theorem evalDelayedGo_run_none (cfg : ParserCfg) (b : ActionCfg)
    (rest : List ActionCfg) (st : PState) (hns : nsGet st.ns b.dest = none) :
    (evalDelayedGo cfg (b :: rest)) st = (evalDelayedGo cfg rest) st := by
  simp only [evalDelayedGo]
  rw [bindM_run]
  simp only [getS, hns]

/-- A non-delayed slot value skips the delayed-default step. -/
theorem evalDelayedGo_run_plain (cfg : ParserCfg) (b : ActionCfg)
    (rest : List ActionCfg) (st : PState) (v : PyVal)
    (hns : nsGet st.ns b.dest = some v) (hv : isDelayedTop v = false) :
    (evalDelayedGo cfg (b :: rest)) st = (evalDelayedGo cfg rest) st := by
  simp only [evalDelayedGo]
  rw [bindM_run]
  simp only [getS, hns]
  cases v with
  | delayed t s => exact absurd hv (by simp [isDelayedTop])
  | pynone => rfl
  | str s => rfl
  | pyint n => rfl
  | plist xs => rfl
  | suppressV => rfl

/-- A delayed slot whose captured action id is unknown aborts. -/
theorem evalDelayedGo_run_missing (cfg : ParserCfg) (b : ActionCfg)
    (rest : List ActionCfg) (st : PState) (t : Nat) (s : String)
    (hns : nsGet st.ns b.dest = some (PyVal.delayed t s))
    (hfa : findAction cfg t = none) :
    (evalDelayedGo cfg (b :: rest)) st =
      (Except.error (PErr.usageErr "unknown delayed action"), st) := by
  simp only [evalDelayedGo]
  rw [bindM_run]
  simp only [getS, hns, hfa]
  rfl

/-- A delayed slot with a registered captured action converts it through
`_get_value` and stores the result. -/
theorem evalDelayedGo_run_found (cfg : ParserCfg) (b : ActionCfg)
    (rest : List ActionCfg) (st : PState) (t : Nat) (s : String) (a2 : ActionCfg)
    (hns : nsGet st.ns b.dest = some (PyVal.delayed t s))
    (hfa : findAction cfg t = some a2) :
    (evalDelayedGo cfg (b :: rest)) st =
      (getValue a2 true s >>= fun v =>
        modifyS (fun st2 => { st2 with ns := nsSet st2.ns b.dest v }) >>= fun _ =>
          evalDelayedGo cfg rest) st := by
  simp only [evalDelayedGo]
  rw [bindM_run]
  simp only [getS, hns, hfa]


/-- The delayed-default post-pass only touches the namespace and the event
log. -/
theorem evalDelayedGo_frame (cfg : ParserCfg) :
    ∀ (acts : List ActionCfg) (st : PState),
    ((evalDelayedGo cfg acts) st).2.seenActions = st.seenActions ∧
    ((evalDelayedGo cfg acts) st).2.seenNonDefault = st.seenNonDefault ∧
    ((evalDelayedGo cfg acts) st).2.extras = st.extras ∧
    ((evalDelayedGo cfg acts) st).2.positionals = st.positionals := by
  intro acts
  induction acts with
  | nil =>
    intro st
    exact ⟨rfl, rfl, rfl, rfl⟩
  | cons b rest ih =>
    intro st
    rcases hns : nsGet st.ns b.dest with _ | v
    · rw [evalDelayedGo_run_none cfg b rest st hns]
      exact ih st
    · by_cases hdl : isDelayedTop v = false
      · rw [evalDelayedGo_run_plain cfg b rest st v hns hdl]
        exact ih st
      · rcases v with _ | s0 | n | xs | _ | ⟨t, s0⟩
        · exact absurd rfl hdl
        · exact absurd rfl hdl
        · exact absurd rfl hdl
        · exact absurd rfl hdl
        · exact absurd rfl hdl
        · rcases hfa : findAction cfg t with _ | a2
          · rw [evalDelayedGo_run_missing cfg b rest st t s0 hns hfa]
            exact ⟨rfl, rfl, rfl, rfl⟩
          · rw [evalDelayedGo_run_found cfg b rest st t s0 a2 hns hfa]
            rcases hgv : (getValue a2 true s0) st with ⟨rv, stg⟩
            have hstg : stg = { st with events := st.events ++ [Ev.mk a2.id s0 true] } := by
              have h0 := getValue_state a2 true s0 st
              rw [hgv] at h0
              exact h0
            rw [bindM_run, hgv]
            cases rv with
            | error e =>
              rw [hstg]
              exact ⟨rfl, rfl, rfl, rfl⟩
            | ok v2 =>
              have h4 := ih ({ stg with ns := nsSet stg.ns b.dest v2 })
              have hseen : stg.seenActions = st.seenActions := by rw [hstg]
              have hsnd : stg.seenNonDefault = st.seenNonDefault := by rw [hstg]
              have hext : stg.extras = st.extras := by rw [hstg]
              have hpos : stg.positionals = st.positionals := by rw [hstg]
              exact ⟨h4.1.trans hseen, h4.2.1.trans hsnd, h4.2.2.1.trans hext,
                h4.2.2.2.trans hpos⟩

/-- When the watched action is not in the remaining queue, the post-pass
appends no default-conversion event tagged with it. -/
theorem evalDelayedGo_events_no_hit (cfg : ParserCfg) (a : ActionCfg)
    (hidnd : (cfg.actions.map (fun x => x.id)).Nodup)
    (hdnd : (cfg.actions.map (fun x => x.dest)).Nodup)
    (ha : a ∈ cfg.actions)
    (hconv : ∀ b ∈ cfg.actions, ∀ f, b.conv = some f →
      ∀ s v, f s = Except.ok v → isDelayedTop v = false) :
    ∀ (acts : List ActionCfg) (st : PState),
    (∀ b ∈ acts, b ∈ cfg.actions) → a ∉ acts →
    DelayedOrigin cfg st.ns →
    defaultEvents a.id ((evalDelayedGo cfg acts) st).2.events =
      defaultEvents a.id st.events := by
  intro acts
  induction acts with
  | nil =>
    intro st _ _ _
    rfl
  | cons b rest ih =>
    intro st hsub hna hdo
    have hbmem := hsub b (List.mem_cons_self _ _)
    have hsubr := fun c hc => hsub c (List.mem_cons_of_mem _ hc)
    have hnar : a ∉ rest := fun h => hna (List.mem_cons_of_mem _ h)
    have hba : b ≠ a := fun h => hna (h ▸ List.mem_cons_self _ _)
    have hidne : b.id ≠ a.id := fun h =>
      hba (List.inj_on_of_nodup_map hidnd hbmem ha h)
    rcases hns : nsGet st.ns b.dest with _ | v
    · rw [evalDelayedGo_run_none cfg b rest st hns]
      exact ih st hsubr hnar hdo
    · by_cases hdl : isDelayedTop v = false
      · rw [evalDelayedGo_run_plain cfg b rest st v hns hdl]
        exact ih st hsubr hnar hdo
      · rcases v with _ | s0 | n | xs | _ | ⟨t, s0⟩
        · exact absurd rfl hdl
        · exact absurd rfl hdl
        · exact absurd rfl hdl
        · exact absurd rfl hdl
        · exact absurd rfl hdl
        · rcases hdo b.dest t s0 hns with ⟨b2, hb2mem, hb2dest, hb2id, hb2def⟩
          have hb2 : b2 = b := List.inj_on_of_nodup_map hdnd hb2mem hbmem hb2dest
          have ht : t = b.id := by rw [← hb2id, hb2]
          rcases hfa : findAction cfg t with _ | a2
          · rw [evalDelayedGo_run_missing cfg b rest st t s0 hns hfa]
          · rw [evalDelayedGo_run_found cfg b rest st t s0 a2 hns hfa]
            have ha2s := findAction_sound cfg t a2 hfa
            have ha2id : a2.id ≠ a.id := by
              rw [ha2s.2, ht]
              exact hidne
            rcases hgv : (getValue a2 true s0) st with ⟨rv, stg⟩
            have hstg : stg = { st with events := st.events ++ [Ev.mk a2.id s0 true] } := by
              have h0 := getValue_state a2 true s0 st
              rw [hgv] at h0
              exact h0
            have hev : defaultEvents a.id stg.events = defaultEvents a.id st.events := by
              rw [hstg]
              exact defaultEvents_append_not a.id st.events _ (by simp [evTag, ha2id])
            rw [bindM_run, hgv]
            cases rv with
            | error e =>
              exact hev
            | ok v2 =>
              have hv2 : isDelayedTop v2 = false :=
                okPost_getValue a2 true s0 (hconv a2 ha2s.1) st v2 stg hgv
              have hdo2 : DelayedOrigin cfg (nsSet stg.ns b.dest v2) := by
                intro k t2 s2 hk
                by_cases hkb : k = b.dest
                · rw [hkb, nsGet_nsSet_same] at hk
                  rw [Option.some.inj hk] at hv2
                  exact absurd hv2 (by simp [isDelayedTop])
                · rw [nsGet_nsSet_ne stg.ns b.dest k v2 hkb] at hk
                  rw [hstg] at hk
                  exact hdo k t2 s2 hk
              have hrest := ih ({ stg with ns := nsSet stg.ns b.dest v2 }) hsubr hnar hdo2
              exact hrest.trans hev

/-- When the watched action's slot still holds its delayed default, a
successful post-pass over a queue containing the action appends exactly
one default-conversion event for it. -/
theorem evalDelayedGo_events_hit (cfg : ParserCfg) (a : ActionCfg) (d : String)
    (hidnd : (cfg.actions.map (fun x => x.id)).Nodup)
    (hdnd : (cfg.actions.map (fun x => x.dest)).Nodup)
    (ha : a ∈ cfg.actions)
    (hconv : ∀ b ∈ cfg.actions, ∀ f, b.conv = some f →
      ∀ s v, f s = Except.ok v → isDelayedTop v = false) :
    ∀ (acts : List ActionCfg) (st st2 : PState),
    (∀ b ∈ acts, b ∈ cfg.actions) → (acts.map (fun x => x.dest)).Nodup →
    a ∈ acts → nsGet st.ns a.dest = some (PyVal.delayed a.id d) →
    DelayedOrigin cfg st.ns →
    (evalDelayedGo cfg acts) st = (Except.ok (), st2) →
    defaultEvents a.id st2.events =
      defaultEvents a.id st.events ++ [Ev.mk a.id d true] := by
  intro acts
  induction acts with
  | nil =>
    intro st st2 _ _ hmem
    cases hmem
  | cons b rest ih =>
    intro st st2 hsub hndacts hain hslot hdo hrun
    have hbmem := hsub b (List.mem_cons_self _ _)
    have hsubr := fun c hc => hsub c (List.mem_cons_of_mem _ hc)
    rw [List.map_cons] at hndacts
    by_cases hba : b = a
    · subst hba
      rw [evalDelayedGo_run_found cfg b rest st b.id d b hslot
        (findAction_of_nodup cfg b hidnd hbmem)] at hrun
      rcases hgv : (getValue b true d) st with ⟨rv, stg⟩
      have hstg : stg = { st with events := st.events ++ [Ev.mk b.id d true] } := by
        have h0 := getValue_state b true d st
        rw [hgv] at h0
        exact h0
      rw [bindM_run, hgv] at hrun
      cases rv with
      | error e => cases hrun
      | ok v2 =>
        have hrun2 : (evalDelayedGo cfg rest)
            ({ stg with ns := nsSet stg.ns b.dest v2 }) = (Except.ok (), st2) := hrun
        have hnar : b ∉ rest := fun h =>
          (List.nodup_cons.mp hndacts).1 (List.mem_map.mpr ⟨b, h, rfl⟩)
        have hv2 : isDelayedTop v2 = false :=
          okPost_getValue b true d (hconv b hbmem) st v2 stg hgv
        have hdo2 : DelayedOrigin cfg (nsSet stg.ns b.dest v2) := by
          intro k t2 s2 hk
          by_cases hkb : k = b.dest
          · rw [hkb, nsGet_nsSet_same] at hk
            rw [Option.some.inj hk] at hv2
            exact absurd hv2 (by simp [isDelayedTop])
          · rw [nsGet_nsSet_ne stg.ns b.dest k v2 hkb] at hk
            rw [hstg] at hk
            exact hdo k t2 s2 hk
        have hfin := evalDelayedGo_events_no_hit cfg b hidnd hdnd hbmem hconv rest
          ({ stg with ns := nsSet stg.ns b.dest v2 }) hsubr hnar hdo2
        rw [hrun2] at hfin
        have hev : defaultEvents b.id stg.events =
            defaultEvents b.id st.events ++ [Ev.mk b.id d true] := by
          rw [hstg]
          exact defaultEvents_append_tag b.id st.events _ (by simp [evTag])
        exact hfin.trans hev
    · have hain2 : a ∈ rest := by
        rcases List.mem_cons.mp hain with h | h
        · exact absurd h.symm hba
        · exact h
      have hamem := hsub a hain
      have hbdne : b.dest ≠ a.dest := fun h =>
        hba (List.inj_on_of_nodup_map hdnd hbmem hamem h)
      have hidb : b.id ≠ a.id := fun h =>
        hba (List.inj_on_of_nodup_map hidnd hbmem hamem h)
      rcases hns : nsGet st.ns b.dest with _ | v
      · rw [evalDelayedGo_run_none cfg b rest st hns] at hrun
        exact ih st st2 hsubr (List.nodup_cons.mp hndacts).2 hain2 hslot hdo hrun
      · by_cases hdl : isDelayedTop v = false
        · rw [evalDelayedGo_run_plain cfg b rest st v hns hdl] at hrun
          exact ih st st2 hsubr (List.nodup_cons.mp hndacts).2 hain2 hslot hdo hrun
        · rcases v with _ | s0 | n | xs | _ | ⟨t, s0⟩
          · exact absurd rfl hdl
          · exact absurd rfl hdl
          · exact absurd rfl hdl
          · exact absurd rfl hdl
          · exact absurd rfl hdl
          · rcases hdo b.dest t s0 hns with ⟨b2, hb2mem, hb2dest, hb2id, hb2def⟩
            have hb2 : b2 = b := List.inj_on_of_nodup_map hdnd hb2mem hbmem hb2dest
            have ht : t = b.id := by rw [← hb2id, hb2]
            rcases hfa : findAction cfg t with _ | a2
            · rw [evalDelayedGo_run_missing cfg b rest st t s0 hns hfa] at hrun
              cases hrun
            · rw [evalDelayedGo_run_found cfg b rest st t s0 a2 hns hfa] at hrun
              have ha2s := findAction_sound cfg t a2 hfa
              have ha2id : a2.id ≠ a.id := by
                rw [ha2s.2, ht]
                exact hidb
              rcases hgv : (getValue a2 true s0) st with ⟨rv, stg⟩
              have hstg : stg =
                  { st with events := st.events ++ [Ev.mk a2.id s0 true] } := by
                have h0 := getValue_state a2 true s0 st
                rw [hgv] at h0
                exact h0
              rw [bindM_run, hgv] at hrun
              cases rv with
              | error e => cases hrun
              | ok v2 =>
                have hrun2 : (evalDelayedGo cfg rest)
                    ({ stg with ns := nsSet stg.ns b.dest v2 }) =
                    (Except.ok (), st2) := hrun
                have hv2 : isDelayedTop v2 = false :=
                  okPost_getValue a2 true s0 (hconv a2 ha2s.1) st v2 stg hgv
                have hdo2 : DelayedOrigin cfg (nsSet stg.ns b.dest v2) := by
                  intro k t2 s2 hk
                  by_cases hkb : k = b.dest
                  · rw [hkb, nsGet_nsSet_same] at hk
                    rw [Option.some.inj hk] at hv2
                    exact absurd hv2 (by simp [isDelayedTop])
                  · rw [nsGet_nsSet_ne stg.ns b.dest k v2 hkb] at hk
                    rw [hstg] at hk
                    exact hdo k t2 s2 hk
                have hslot2 : nsGet (nsSet stg.ns b.dest v2) a.dest =
                    some (PyVal.delayed a.id d) := by
                  rw [nsGet_nsSet_ne stg.ns b.dest a.dest v2 (fun h => hbdne h.symm)]
                  rw [hstg]
                  exact hslot
                have hres := ih ({ stg with ns := nsSet stg.ns b.dest v2 }) st2
                  hsubr (List.nodup_cons.mp hndacts).2 hain2 hslot2 hdo2 hrun2
                have hev : defaultEvents a.id stg.events =
                    defaultEvents a.id st.events := by
                  rw [hstg]
                  exact defaultEvents_append_not a.id st.events _
                    (by simp [evTag, ha2id])
                exact hres.trans
                  (congrArg (fun l => l ++ [Ev.mk a.id d true]) hev)


/-- C8 (amended): for an optional action (one with option strings) whose
configured default is a string, in a well-formed parser the matching phase
never converts that default (so conversion and validation errors of
explicitly supplied arguments are raised first), and on a successful parse
in which the action was not seen with a non-default value the default is
converted exactly once, after the matching phase. -/
theorem delayed_default_spec (cfg : ParserCfg) (a : ActionCfg) (d : String)
    (args : List String) (hwf : WFParser cfg) (ha : a ∈ cfg.actions)
    (hopt : a.optionStrings ≠ []) (hdefv : a.defaultV = PyVal.str d)
    (hdest : a.dest ≠ suppressStr) :
    defaultEvents a.id ((parseKnownArgsInner cfg args) (initState cfg)).2.events = [] ∧
    (∀ res st2, parseKnownArgs cfg args = (Except.ok res, st2) →
      a.id ∉ st2.seenNonDefault →
      defaultEvents a.id st2.events = [Ev.mk a.id d true]) := by
  obtain ⟨hids, hdests, hdc, hcv, hpd⟩ := hwf
  have hok : CfgOK cfg a := by
    refine ⟨?_, hdc, hcv⟩
    intro b hb
    by_cases hba : b = a
    · subst hba
      exact Or.inl ⟨rfl, hopt⟩
    · exact Or.inr ⟨fun h => hba (List.inj_on_of_nodup_map hids hb ha h),
        fun h => hba (List.inj_on_of_nodup_map hdests hb ha h)⟩
  have hstep := stepOK_parseKnownArgsInner cfg a hok args (initState cfg)
  rcases hin : (parseKnownArgsInner cfg args) (initState cfg) with ⟨r1, stI⟩
  rw [hin] at hstep
  have hev0 : defaultEvents a.id stI.events = [] := hstep.2.1
  refine ⟨?_, ?_⟩
  · exact hev0
  · intro res st2 hrun hnsd
    rw [parseKnownArgs] at hrun
    rw [bindM_run, hin] at hrun
    cases r1 with
    | error e => cases hrun
    | ok extras =>
      have hrun2 : (evalDelayed cfg >>= fun _ => getS >>= fun st =>
          pure ((st.ns, extras) : List (String × PyVal) × List String)) stI =
          (Except.ok res, st2) := hrun
      rcases hed : (evalDelayed cfg) stI with ⟨r2, stE⟩
      rw [bindM_run, hed] at hrun2
      cases r2 with
      | error e => cases hrun2
      | ok u =>
        have hpair : (Except.ok ((stE.ns, extras) :
            List (String × PyVal) × List String), stE) = (Except.ok res, st2) := hrun2
        have hst2 : st2 = stE := ((Prod.mk.injEq _ _ _ _).mp hpair).2.symm
        subst hst2
        have hed2 : (evalDelayedGo cfg cfg.actions) stI = (Except.ok u, st2) := hed
        have hfr : st2.seenNonDefault = stI.seenNonDefault := by
          have h3 := (evalDelayedGo_frame cfg cfg.actions stI).2.1
          rw [hed2] at h3
          exact h3
        have hsndI : a.id ∉ stI.seenNonDefault := by
          rw [← hfr]
          exact hnsd
        have hns0 : nsGet (initState cfg).ns a.dest = some (PyVal.delayed a.id d) :=
          nsGet_addDefaults_delayed cfg a d ha hdests hdefv hdest
        have hslotI : nsGet stI.ns a.dest = some (PyVal.delayed a.id d) := by
          have h3 := hstep.2.2.1 hsndI
          rw [h3]
          exact hns0
        have hdoI : DelayedOrigin cfg stI.ns := by
          intro k t s hk
          rcases hstep.2.2.2 k with heq1 | ⟨v, hv, hnd2⟩
          · rw [heq1] at hk
            exact addDefaults_origin cfg (fun b hb => (hdc b hb).1) hpd k t s hk
          · rw [hv] at hk
            rw [Option.some.inj hk] at hnd2
            exact absurd hnd2 (by simp [isDelayedTop])
        have hmain := evalDelayedGo_events_hit cfg a d hids hdests ha hcv
          cfg.actions stI st2 (fun b hb => hb) hdests ha hslotI hdoI hed2
        rw [hmain, hev0]
        rfl


/-- Witness for the amended C8 theorem: the one-action parser with the
`-x` optional and string default `D`, parsed on no tokens, records exactly
one default conversion, and none during the matching phase. -/
theorem delayed_default_spec_witness :
    defaultEvents 0 ((parseKnownArgsInner optDefCfg [])
      (initState optDefCfg)).2.events = [] ∧
    defaultEvents 0 (parseKnownArgs optDefCfg []).2.events =
      [Ev.mk 0 "D" true] := by
  have hwf : WFParser optDefCfg := by
    refine ⟨by decide, by decide, ?_, ?_, ?_⟩
    · intro b hb
      have hb2 : b ∈ [optDefAct] := hb
      rw [List.mem_singleton.mp hb2]
      exact ⟨rfl, rfl⟩
    · intro b hb f hf
      have hb2 : b ∈ [optDefAct] := hb
      rw [List.mem_singleton.mp hb2] at hf
      exact Option.noConfusion hf
    · intro kv hkv
      have hkv2 : kv ∈ ([] : List (String × PyVal)) := hkv
      cases hkv2
  have h := delayed_default_spec optDefCfg optDefAct "D" [] hwf
    (List.mem_singleton.mpr rfl) (by decide) rfl (by decide)
  refine ⟨h.1, ?_⟩
  have hrun : parseKnownArgs optDefCfg [] =
      (Except.ok ([("x", PyVal.str "D")], ([] : List String)),
        PState.mk [("x", PyVal.str "D")] [] [] [] [] [Ev.mk 0 "D" true]) := by rfl
  have h2 := h.2 ([("x", PyVal.str "D")], [])
    (PState.mk [("x", PyVal.str "D")] [] [] [] [] [Ev.mk 0 "D" true]) hrun (by decide)
  rw [hrun]
  exact h2

end ArgparseSpec
